import Mathlib

/-!
Verification development for the floopy hybrid knowledge retrieval and
indexing engine.

The definitions below are a shallow embedding of the JavaScript source:

* `src/unnamed/part_006` (the knowledge utilities module):
  `normalizeWhitespace`, `chunkText`, `buildChunkObjects`;
* `src/middleware/ai_champion_middleware.js`:
  `sanitizeIndexName`, `sanitizeNamespace`, `extractCaseIdsFromText`,
  `syncFloppyToPinecone`, and the retrieval closure returned by
  `createPineconeMemoryProvider`.

Modelling conventions:

* JavaScript strings are modelled as `String` or, where character-level
  scanning matters, as `List Char`; the regular expressions of the source
  are implemented as explicit scanners over `List Char`.
* Floating point scores are modelled as `ℚ`.  Score expressions are given
  in a single `mkRat` normal form so that they evaluate inside the kernel;
  lemmas link them to the textbook form of the formula.
* Network effects (embedding service, vector index) are modelled as
  explicit oracle parameters: an embedding call that can fail is an
  `Option` result, a per-target vector query that can fail is an
  `Option (List VMatch)` result, and the write path is reified as a list
  of `SyncOp` effects.
* JavaScript `a || b` on strings (where the empty string is falsy) is
  modelled by `jsOrStr`.
* `Array.prototype.sort` with the comparator `(a, b) => b.score - a.score`
  is a stable sort; it is modelled by a stable insertion sort, which
  produces the identical output list.
-/

namespace Floopy

/-- Character class of the JavaScript regular expression class backslash-s
(the whitespace set used by `trim` and by the `split` pattern). -/
def jsWs (c : Char) : Bool :=
  c.toNat ∈ [32, 9, 10, 13, 11, 12, 160, 0x1680, 0x2028, 0x2029, 0x202f, 0x205f,
    0x3000, 0xfeff]
  || (0x2000 ≤ c.toNat && c.toNat ≤ 0x200a)

/-- JavaScript `String.prototype.trim` on a character list. -/
def trimChars (l : List Char) : List Char :=
  ((l.dropWhile jsWs).reverse.dropWhile jsWs).reverse

/-- JavaScript `String.prototype.trim`. -/
def strTrim (s : String) : String :=
  String.mk (trimChars s.data)

/-- JavaScript `String.prototype.toLowerCase` (ASCII letters). -/
def lowerCL (s : String) : List Char :=
  s.data.map Char.toLower

/-- JavaScript `String.prototype.toLowerCase` returning a string. -/
def lowerStr (s : String) : String :=
  String.mk (lowerCL s)

/-- JavaScript `String.prototype.toUpperCase` (ASCII letters). -/
def upperCL (s : String) : List Char :=
  s.data.map Char.toUpper

/-- JavaScript `String.prototype.toUpperCase` returning a string. -/
def upperStr (s : String) : String :=
  String.mk (upperCL s)

/-- JavaScript `a || b` for strings: the empty string is falsy, an absent
value falls through to the default. -/
def jsOrStr (a : Option String) (b : String) : String :=
  match a with
  | some s => if s = "" then b else s
  | none => b

/-- JavaScript `v || null` for an optional string-valued field: the empty
string collapses to an absent value. -/
def jsOrNull (a : Option String) : Option String :=
  match a with
  | some s => if s = "" then none else some s
  | none => none

/-- JavaScript `haystack.includes(needle)` on character lists. -/
def containsSub (needle : List Char) : List Char → Bool
  | [] => needle.isEmpty
  | c :: rest => needle.isPrefixOf (c :: rest) || containsSub needle rest

/-- Insertion-order deduplication with an explicit seen set, as performed
by feeding a list through a JavaScript `Set` and reading it back. -/
def dedupFirstGo (seen : List String) : List String → List String
  | [] => []
  | x :: xs =>
    if seen.contains x then dedupFirstGo seen xs
    else x :: dedupFirstGo (x :: seen) xs

/-- Insertion-order deduplication (JavaScript `Array.from(new Set(l))`). -/
def dedupFirst (l : List String) : List String :=
  dedupFirstGo [] l

/-- Fuelled splitter for the regular expression pattern backslash-s-plus:
at a whitespace character skip it, otherwise the maximal non-whitespace run
starting there is one piece.  The fuel argument only makes the recursion
structural; `splitWs` supplies enough fuel for it never to run out. -/
def splitWsF : ℕ → List Char → List (List Char)
  | 0, _ => []
  | _ + 1, [] => []
  | fuel + 1, c :: rest =>
    if jsWs c then splitWsF fuel rest
    else (c :: rest.takeWhile (fun d => ! jsWs d)) ::
      splitWsF fuel (rest.dropWhile (fun d => ! jsWs d))

/-- Splitting on the regular expression pattern backslash-s-plus followed by
dropping empty pieces, i.e. the maximal runs of non-whitespace characters. -/
def splitWs (l : List Char) : List (List Char) :=
  splitWsF (l.length + 1) l

/-! ### normalizeWhitespace (part_006, lines 11-23) -/

/-- Replacement of NUL characters by spaces (first step of
`normalizeWhitespace`). -/
def nulToSpace (l : List Char) : List Char :=
  l.map (fun c => if c.toNat = 0 then ' ' else c)

/-- Replacement of CRLF or bare CR by LF (second step of
`normalizeWhitespace`). -/
def crToNl : List Char → List Char
  | [] => []
  | '\r' :: '\n' :: rest => '\n' :: crToNl rest
  | '\r' :: rest => '\n' :: crToNl rest
  | c :: rest => c :: crToNl rest

/-- Characters collapsed by the tab run replacement: tab, form feed and
vertical tab. -/
def isTfv (c : Char) : Bool :=
  c.toNat ∈ [9, 12, 11]

/-- State machine for the global replacement of runs of tab, form feed and
vertical tab by a single space: the flag records whether the previous
character belonged to such a run (in which case the run's space has already
been emitted). -/
def collapseTfvGo : Bool → List Char → List Char
  | _, [] => []
  | inRun, c :: rest =>
    if isTfv c then
      if inRun then collapseTfvGo true rest
      else ' ' :: collapseTfvGo true rest
    else c :: collapseTfvGo false rest

/-- Replacement of runs of tab, form feed and vertical tab by a single
space (third step of `normalizeWhitespace`). -/
def collapseTfv (l : List Char) : List Char :=
  collapseTfvGo false l

/-- Replacement of non-breaking spaces by plain spaces (fourth step of
`normalizeWhitespace`). -/
def nbspToSpace (l : List Char) : List Char :=
  l.map (fun c => if c.toNat = 160 then ' ' else c)

/-- Split into lines at LF (the `.split` of `normalizeWhitespace`). -/
def splitOnNl : List Char → List (List Char)
  | [] => [[]]
  | '\n' :: rest => [] :: splitOnNl rest
  | c :: rest =>
    match splitOnNl rest with
    | [] => [[c]]
    | line :: more => (c :: line) :: more

/-- State machine for the global replacement of runs of three or more LF
characters by exactly two: `pending` counts LF characters seen but not yet
emitted; at a run's end at most two of them are emitted. -/
def collapseNlGo : ℕ → List Char → List Char
  | pending, [] => List.replicate (min pending 2) '\n'
  | pending, c :: rest =>
    if c = '\n' then collapseNlGo (pending + 1) rest
    else List.replicate (min pending 2) '\n' ++ c :: collapseNlGo 0 rest

/-- Collapse runs of three or more LF characters down to two (the
penultimate step of `normalizeWhitespace`). -/
def collapseNl (l : List Char) : List Char :=
  collapseNlGo 0 l

/-- Model of `normalizeWhitespace` (part_006, lines 11-23): NUL to space,
CR normalisation, tab-run collapse, NBSP to space, per-line trim, blank-line
collapse, and a final trim. -/
def normalizeWhitespace (l : List Char) : List Char :=
  trimChars (collapseNl (List.intercalate ['\n']
    ((splitOnNl (nbspToSpace (collapseTfv (crToNl (nulToSpace l))))).map trimChars)))

/-! ### chunkText (part_006, lines 25-64) -/

/-- Resolved numeric options of `chunkText`: the source reads
`options.chunkSize` and `options.minChunkSize` through `parseInt` with
module defaults; the model takes the resolved values. -/
structure ChunkOptions where
  chunkSize : ℕ
  minChunkSize : ℕ

/-- The `current.join(' ')` of `chunkText`. -/
def joinWords : List (List Char) → List Char
  | [] => []
  | [w] => w
  | w :: ws => w ++ ' ' :: joinWords ws

/-- The `pushCurrent` helper of `chunkText`: join the buffered words with
single spaces, trim, and append the result when non-empty. -/
def pushCurrent (chunks : List (List Char)) (current : List (List Char)) :
    List (List Char) :=
  if current.isEmpty then chunks
  else
    if (trimChars (joinWords current)).isEmpty then chunks
    else chunks ++ [trimChars (joinWords current)]

/-- The word loop of `chunkText` (part_006, lines 48-56).  The state is the
remaining words, the `current` buffer, the running `currentLength` counter
and the accumulated chunks; the counter is incremented by
`word.length + (currentLength ? 1 : 0)` computed before a flush, exactly as
in the source. -/
def packLoop (chunkSize : ℕ) :
    List (List Char) → List (List Char) → ℕ → List (List Char) → List (List Char)
  | [], current, _, chunks => pushCurrent chunks current
  | w :: ws, current, currentLength, chunks =>
    if chunkSize < currentLength + (w.length + (if currentLength = 0 then 0 else 1))
        && ! current.isEmpty then
      packLoop chunkSize ws [w]
        (w.length + (if currentLength = 0 then 0 else 1))
        (pushCurrent chunks current)
    else
      packLoop chunkSize ws (current ++ [w])
        (currentLength + (w.length + (if currentLength = 0 then 0 else 1)))
        chunks

/-- The small-tail merge of `chunkText` (part_006, lines 58-61): when more
than one chunk exists and the final chunk is shorter than `minChunkSize`,
it is appended (space-separated, trimmed) onto the previous chunk. -/
def mergeSmallTail (minChunkSize : ℕ) (chunks : List (List Char)) :
    List (List Char) :=
  match chunks.reverse with
  | tail :: prev :: restRev =>
    if tail.length < minChunkSize then
      restRev.reverse ++ [trimChars (prev ++ ' ' :: tail)]
    else chunks
  | _ => chunks

/-- Model of `chunkText` (part_006, lines 25-64): normalise, split into
whitespace-delimited words, greedily pack words into chunks bounded by
`chunkSize`, then merge a too-small final chunk into its predecessor. -/
def chunkText (options : ChunkOptions) (text : List Char) : List (List Char) :=
  if (normalizeWhitespace text).isEmpty then []
  else
    if (splitWs (normalizeWhitespace text)).isEmpty then []
    else
      mergeSmallTail options.minChunkSize
        (packLoop options.chunkSize (splitWs (normalizeWhitespace text)) [] 0 [])

/-- The packed chunk list of the main branch of `chunkText`, before the
small-tail merge. -/
def packedChunks (opts : ChunkOptions) (text : List Char) : List (List Char) :=
  packLoop opts.chunkSize (splitWs (normalizeWhitespace text)) [] 0 []

/-! ### buildChunkObjects (part_006, lines 66-87) -/

/-- The `source` argument of `buildChunkObjects`. -/
structure SourceRef where
  id : String
  type : String
  name : String

/-- The options record of `buildChunkObjects`; `segments`, `baseId` and
`useStableIds` on top of the numeric chunking options. -/
structure BuildOptions where
  chunkSize : ℕ
  minChunkSize : ℕ
  segments : Option (List (List Char)) := none
  baseId : Option String := none
  useStableIds : Bool := false

/-- One output chunk object of `buildChunkObjects` (the open metadata map
is projected onto the fields the engine writes). -/
structure ChunkObj where
  id : String
  text : List Char
  sourceId : String
  sourceType : String
  sourceName : String
  chunkIndex : ℕ
  chunkCount : ℕ

/-- Segment resolution of `buildChunkObjects`: caller-provided segments are
kept (dropping falsy entries, normalising, dropping entries that normalise
to nothing); otherwise the text is chunked by `chunkText`. -/
def resolveSegments (opts : BuildOptions) (text : List Char) : List (List Char) :=
  match opts.segments with
  | some provided =>
    if (provided.filter (fun s => ! s.isEmpty)).isEmpty then
      chunkText ⟨opts.chunkSize, opts.minChunkSize⟩ text
    else
      ((provided.filter (fun s => ! s.isEmpty)).map normalizeWhitespace).filter
        (fun s => ! s.isEmpty)
  | none => chunkText ⟨opts.chunkSize, opts.minChunkSize⟩ text

/-- Helper enumerating a list with indices starting at `start`. -/
def withIdxFrom (start : ℕ) : List α → List (ℕ × α)
  | [] => []
  | x :: xs => (start, x) :: withIdxFrom (start + 1) xs

/-- Enumerate a list with indices from zero (models `Array.prototype.map`
receiving the element index). -/
def withIdx (l : List α) : List (ℕ × α) :=
  withIdxFrom 0 l

/-- Model of `buildChunkObjects` (part_006, lines 66-87).  The
`crypto.randomUUID()` of the non-stable branch is an oracle `uuid` indexed
by the chunk ordinal. -/
def buildChunkObjects (source : SourceRef) (opts : BuildOptions)
    (uuid : ℕ → String) (text : List Char) : List ChunkObj :=
  (withIdx (resolveSegments opts text)).map (fun p =>
    { id :=
        if opts.useStableIds then
          jsOrStr opts.baseId source.id ++ ":" ++ toString (p.1 + 1)
        else
          jsOrStr opts.baseId source.id ++ ":" ++ toString (p.1 + 1) ++ ":" ++ uuid p.1
      text := p.2
      sourceId := source.id
      sourceType := source.type
      sourceName := source.name
      chunkIndex := p.1
      chunkCount := (resolveSegments opts text).length })

/-! ### Name sanitisers (ai_champion_middleware.js, lines 164-183) -/

/-- State machine for the global replacement of dash runs by a single
dash: the flag records whether the previous character was a dash. -/
def collapseDashGo : Bool → List Char → List Char
  | _, [] => []
  | inRun, c :: rest =>
    if c = '-' then
      if inRun then collapseDashGo true rest
      else '-' :: collapseDashGo true rest
    else c :: collapseDashGo false rest

/-- Collapse runs of dashes to a single dash (the second replacement of the
sanitisers). -/
def collapseDash (l : List Char) : List Char :=
  collapseDashGo false l

/-- Strip leading and trailing dashes (the third replacement of the
sanitisers). -/
def stripEdgeDashes (l : List Char) : List Char :=
  ((l.dropWhile (fun d => d = '-')).reverse.dropWhile (fun d => d = '-')).reverse

/-- Membership in the character class a-z or 0-9. -/
def isLowerAlnum (c : Char) : Bool :=
  ('a' ≤ c && c ≤ 'z') || ('0' ≤ c && c ≤ '9')

/-- Model of `sanitizeIndexName` (middleware lines 164-173): lowercase,
replace characters outside a-z, 0-9, dash by a dash, collapse dash runs,
strip edge dashes, fall back to the string default, truncate to 40
characters, and add the tenant marker in front. -/
def sanitizeIndexName (raw : String) : String :=
  "tenant-" ++ String.mk
    (let stripped := stripEdgeDashes (collapseDash
      ((lowerCL raw).map (fun c => if isLowerAlnum c || c = '-' then c else '-')))
    let base := if stripped.isEmpty then "default".data else stripped
    let truncated := base.take 40
    if truncated.isEmpty then "default".data else truncated)

/-- Model of `sanitizeNamespace` (middleware lines 175-183): as
`sanitizeIndexName` but additionally allowing underscores, truncating to 63
characters, and without a marker. -/
def sanitizeNamespace (raw : String) : String :=
  String.mk
    (let stripped := stripEdgeDashes (collapseDash
      ((lowerCL raw).map (fun c => if isLowerAlnum c || c = '_' || c = '-' then c else '-')))
    let base := if stripped.isEmpty then "default".data else stripped
    let truncated := base.take 63
    if truncated.isEmpty then "default".data else truncated)

/-! ### extractCaseIdsFromText (middleware lines 214-221) -/

/-- Membership in the decimal digit character class. -/
def isDigitCh (c : Char) : Bool :=
  '0' ≤ c && c ≤ '9'

/-- Scanner state for the case-id pattern: nothing pending, a pending C,
or a pending CS with the greedily collected digit run. -/
inductive CaseScanState where
  | idle : CaseScanState
  | sawC : CaseScanState
  | sawCS (digits : List Char) : CaseScanState

/-- Restart transition of the case-id scanner at a fresh character (taken
after a completed match or a failed candidate; the characters inside either
one cannot start a new match, so restarting at the current character agrees
with the regular expression engine retrying at successive offsets). -/
def caseRestart (c : Char) : CaseScanState :=
  if c = 'C' then CaseScanState.sawC else CaseScanState.idle

/-- Left-to-right scan for the pattern CS followed by five or more digits
(greedy), continuing after each match, as the global regular expression
match of `extractCaseIdsFromText` does on the upper-cased text. -/
def caseIdGo : CaseScanState → List Char → List String
  | CaseScanState.sawCS ds, [] => if 5 ≤ ds.length then ["CS" ++ String.mk ds] else []
  | _, [] => []
  | CaseScanState.idle, c :: rest => caseIdGo (caseRestart c) rest
  | CaseScanState.sawC, c :: rest =>
    if c = 'S' then caseIdGo (CaseScanState.sawCS []) rest
    else caseIdGo (caseRestart c) rest
  | CaseScanState.sawCS ds, c :: rest =>
    if isDigitCh c then caseIdGo (CaseScanState.sawCS (ds ++ [c])) rest
    else
      if 5 ≤ ds.length then
        ("CS" ++ String.mk ds) :: caseIdGo (caseRestart c) rest
      else caseIdGo (caseRestart c) rest

/-- All case-id matches of a character list, left to right. -/
def caseIdScan (l : List Char) : List String :=
  caseIdGo CaseScanState.idle l

/-- Model of `extractCaseIdsFromText` (middleware lines 214-221): uppercase
the text, collect all matches of the case-id pattern, and deduplicate them
preserving first occurrence. -/
def extractCaseIdsFromText (s : String) : List String :=
  dedupFirst (caseIdScan (upperCL s))

/-! ### Query tokenisation (middleware line 612) -/

/-- Tail characters of a query token: a-z, 0-9 or dash. -/
def isTokenTail (c : Char) : Bool :=
  isLowerAlnum c || c = '-'

/-- Restart transition of the token scanner: a fresh candidate opens at a
character of a-z or 0-9 (the pending candidate is its head character and
the greedily collected tail characters).  Restarting at the current
character agrees with the regular expression engine retrying at successive
offsets, because no character inside a completed match or failed candidate
can start a match that survives. -/
def lexRestart (c : Char) : Option (Char × List Char) :=
  if isLowerAlnum c then some (c, []) else none

/-- Left-to-right scan for the token pattern: one character of a-z or 0-9
followed greedily by two or more characters of a-z, 0-9 or dash, as the
global regular expression match on the lower-cased query text. -/
def lexGo : Option (Char × List Char) → List Char → List String
  | some (h, ds), [] => if 2 ≤ ds.length then [String.mk (h :: ds)] else []
  | none, [] => []
  | none, c :: rest => lexGo (lexRestart c) rest
  | some (h, ds), c :: rest =>
    if isTokenTail c then lexGo (some (h, ds ++ [c])) rest
    else
      if 2 ≤ ds.length then
        String.mk (h :: ds) :: lexGo (lexRestart c) rest
      else lexGo (lexRestart c) rest

/-- All token matches of a character list, left to right. -/
def lexTokens (l : List Char) : List String :=
  lexGo none l

/-! ### Knowledge synchronisation (middleware lines 325-416) -/

/-- An entry of a floppy's `knowledgeChunks` array as read by the
synchroniser: absent, a legacy plain string, or a chunk object (projected
onto the fields the synchroniser reads). -/
inductive KChunk where
  | nullChunk : KChunk
  | legacy (s : String) : KChunk
  | obj (id : Option String) (text : String) (sourceType : Option String)
      (sourceName : Option String) (metaSource : Option String)
      (metaFilename : Option String) : KChunk

/-- A floppy (knowledge base) as read by the synchroniser. -/
structure Floppy where
  id : String
  title : String
  knowledgeChunks : List KChunk

/-- A prepared chunk tuple of `syncFloppyToPinecone` step 1. -/
structure PChunk where
  id : String
  text : String
  sourceType : String
  sourceName : String
deriving DecidableEq

/-- The per-chunk preparation map of `syncFloppyToPinecone` (middleware
lines 328-352): drop absent chunks, trim texts, drop empty texts, and
resolve identifiers and provenance with the fallback chains of the
source. -/
def prepareChunk (floppyId : String) (p : ℕ × KChunk) : Option PChunk :=
  match p.2 with
  | .nullChunk => none
  | .legacy s =>
    if strTrim s = "" then none
    else some
      { id := floppyId ++ ":legacy:" ++ toString p.1
        text := strTrim s
        sourceType := "manual"
        sourceName := "Manual knowledge" }
  | .obj id text sourceType sourceName metaSource metaFilename =>
    if strTrim text = "" then none
    else some
      { id := jsOrStr id (floppyId ++ ":chunk:" ++ toString p.1)
        text := strTrim text
        sourceType := jsOrStr sourceType (jsOrStr metaSource "manual")
        sourceName := jsOrStr sourceName (jsOrStr metaFilename (jsOrStr metaSource "")) }

/-- The prepared chunk list of `syncFloppyToPinecone` step 1, including the
final filter on non-empty text. -/
def preparedChunks (floppy : Floppy) : List PChunk :=
  ((withIdx floppy.knowledgeChunks).filterMap (prepareChunk floppy.id)).filter
    (fun c => c.text ≠ "")

/-- One observable effect of the synchroniser against its external
collaborators, in issue order. -/
inductive SyncOp where
  | deleteAllOp (indexName : String) (ns : String) : SyncOp
  | embedRequest (texts : List String) : SyncOp
  | ensureIndexOp (indexName : String) (dimension : ℕ) : SyncOp
  | upsertOp (indexName : String) (ns : String) (vectorIds : List String) : SyncOp
deriving DecidableEq

/-- Model of `syncFloppyToPinecone` (middleware lines 325-416) as the list
of effects issued against the embedding service and the vector index.  The
embedding service is the oracle `embed` (`none` models a thrown error); the
SHA-256 vector-id hash is the oracle `hashFn`.  The client-disabled guards
are modelled by the empty-tenant check. -/
def syncFloppyToPinecone (tenantId : String) (floppy : Floppy)
    (embed : List String → Option (List (List ℚ))) (hashFn : String → String) :
    List SyncOp :=
  if tenantId = "" then []
  else
    if (preparedChunks floppy).isEmpty then
      [SyncOp.deleteAllOp (sanitizeIndexName tenantId)
        (sanitizeNamespace ("floppy-" ++ floppy.id))]
    else
      match embed ((preparedChunks floppy).map (fun c => c.text)) with
      | none => [SyncOp.embedRequest ((preparedChunks floppy).map (fun c => c.text))]
      | some embeddings =>
        if embeddings.isEmpty then
          [SyncOp.embedRequest ((preparedChunks floppy).map (fun c => c.text))]
        else
          if (embeddings.headD []).length = 0 then
            [SyncOp.embedRequest ((preparedChunks floppy).map (fun c => c.text))]
          else
            [SyncOp.embedRequest ((preparedChunks floppy).map (fun c => c.text)),
             SyncOp.ensureIndexOp (sanitizeIndexName tenantId) (embeddings.headD []).length,
             SyncOp.deleteAllOp (sanitizeIndexName tenantId)
               (sanitizeNamespace ("floppy-" ++ floppy.id)),
             SyncOp.upsertOp (sanitizeIndexName tenantId)
               (sanitizeNamespace ("floppy-" ++ floppy.id))
               ((preparedChunks floppy).map (fun c => hashFn c.id))]

/-! ### Hybrid retrieval (middleware lines 528-825) -/

/-- Match metadata, projected onto the string-valued fields the retrieval
closure reads or writes.  A vector match returned by the index carries the
metadata written by the synchroniser; a local match carries the chunk's own
metadata object enriched by the retrieval pass. -/
structure RMeta where
  origin : Option String := none
  chunkId : Option String := none
  mid : Option String := none
  sourceName : Option String := none
  title : Option String := none
  filename : Option String := none
  documentTitle : Option String := none
  source : Option String := none
  groupName : Option String := none
  keywords : List String := []
  matchedCaseIds : List String := []
  text : Option String := none
  snippet : Option String := none
  pineconeIndex : Option String := none
  pineconeNamespace : Option String := none
deriving DecidableEq

/-- A locally held knowledge chunk as read by the retrieval closure; `text`
models the string drawn from the chunk's text or content field. -/
structure RChunk where
  id : Option String := none
  name : Option String := none
  text : String := ""
  metadata : RMeta := {}
deriving DecidableEq

/-- An `(indexName, namespace)` vector-search target. -/
structure Target where
  indexName : Option String
  ns : Option String
deriving DecidableEq

/-- A scored match, either returned by a vector query or synthesised by the
exact-id or lexical pass. -/
structure VMatch where
  id : String
  score : ℚ
  metadata : RMeta
deriving DecidableEq

/-- A retrieval result entry, projected onto the fields the claims concern:
the score, the deduplication identifier, the text snippet served as
content, and the origin tag recorded in the enriched metadata. -/
structure RResult where
  score : ℚ
  docId : String
  content : String
  metaOrigin : Option String
deriving DecidableEq

/-- The captured state of one memory provider returned by
`createPineconeMemoryProvider`: the floppy id, its locally held chunk set,
the resolved vector-search targets and the configured default for the
query size. -/
structure ProviderCtx where
  floppyId : String
  knowledgeChunks : List RChunk
  targets : List Target
  maxTopK : ℕ

/-- The clamp applied by the retrieval closure at middleware line 586:
`Math.max(1, Math.min(20, topK || maxTopK))`, with `topK = 0` modelling a
falsy caller value. -/
def retrieveLimit (topK maxTopK : ℕ) : ℕ :=
  max 1 (min 20 (if topK = 0 then maxTopK else topK))

/-- The environment-driven default query size of `pineconeConfig`
(middleware lines 147-149): an integer environment value is clamped into
1..20, an unset or unparsable value yields 6. -/
def pineconeQueryTopK (envValue : Option ℤ) : ℤ :=
  match envValue with
  | some v => max 1 (min 20 v)
  | none => 6

/-- The per-target fan-out of the vector leg (middleware lines 591-610):
each resolved target is queried with the clamped limit; a failed target
(`none`) is skipped and contributes no matches. -/
def vectorPool (targets : List Target)
    (fetch : Target → ℕ → Option (List VMatch)) (limit : ℕ) :
    List (Target × VMatch) :=
  targets.flatMap (fun t =>
    match fetch t limit with
    | none => []
    | some ms => ms.map (fun m => (t, m)))

/-- Resolution of a local chunk's identifier (middleware lines 624 and
676): the chunk's own id, else the metadata chunk id, else a positional
fallback derived from the floppy id. -/
def resolveChunkId (floppyId : String) (idx : ℕ) (c : RChunk) : String :=
  jsOrStr c.id (jsOrStr c.metadata.chunkId (floppyId ++ ":chunk:" ++ toString idx))

/-- The source-label fallback chain shared by the exact-id and lexical
passes (middleware lines 632-639 and 691-698). -/
def sourceLabel (c : RChunk) (chunkId : String) : String :=
  jsOrStr c.metadata.sourceName
    (jsOrStr c.metadata.title
      (jsOrStr c.metadata.filename
        (jsOrStr c.metadata.documentTitle
          (jsOrStr c.metadata.source
            (jsOrStr c.metadata.groupName
              (jsOrStr c.name chunkId))))))

/-- Existing keyword cleanup shared by both local passes: trim each
keyword and drop the ones that trim to nothing. -/
def cleanKeywords (l : List String) : List String :=
  (l.map strTrim).filter (fun w => w ≠ "")

/-- The matched case ids of one chunk (the `matchedIds` of middleware line
620): the query case ids whose lower-cased form occurs in the chunk's
lower-cased text. -/
def matchedCaseIds (caseIdsLower : List String) (c : RChunk) : List String :=
  caseIdsLower.filter (fun i => containsSub i.data (lowerCL c.text))

/-- The per-chunk body of the exact-identifier pass (the arrow function of
middleware lines 616-654): skip chunks without text or without a matched
case id, otherwise emit a match with the fixed score 0.999 tagged
case-id. -/
def caseMatchOfChunk (floppyId : String) (caseIdsLower : List String)
    (p : ℕ × RChunk) : Option VMatch :=
  if p.2.text = "" then none
  else
    if (matchedCaseIds caseIdsLower p.2).isEmpty then none
    else
      some
        { id := resolveChunkId floppyId p.1 p.2
          score := mkRat 999 1000
          metadata :=
            { p.2.metadata with
              origin := some "case-id"
              chunkId := some (resolveChunkId floppyId p.1 p.2)
              sourceName := some (sourceLabel p.2 (resolveChunkId floppyId p.1 p.2))
              keywords := dedupFirst (cleanKeywords p.2.metadata.keywords ++
                matchedCaseIds caseIdsLower p.2)
              matchedCaseIds := (matchedCaseIds caseIdsLower p.2).map upperStr
              text := some p.2.text } }

/-- The exact-identifier pass (middleware lines 614-658): for every locally
held chunk whose lower-cased text contains one of the query's lower-cased
case ids, emit a match with the fixed score 0.999 tagged case-id. -/
def caseMatches (floppyId : String) (chunks : List RChunk)
    (caseIdsLower : List String) : List VMatch :=
  if caseIdsLower.isEmpty then []
  else (withIdx chunks).filterMap (caseMatchOfChunk floppyId caseIdsLower)

/-- The search-token selection of the lexical pass (middleware lines
662-663): tokens longer than two characters, or all unique tokens when no
token qualifies. -/
def searchTokensOf (uniqueTokens : List String) : List String :=
  if (uniqueTokens.filter (fun t => 2 < t.length)).isEmpty then uniqueTokens
  else uniqueTokens.filter (fun t => 2 < t.length)

/-- The lexical score of middleware line 700, written as one normalised
fraction so that it evaluates: `min(0.98, 0.6 + (hits / total) * 0.4)`.
`lexicalScore_eq_formula` below links it to the textbook form. -/
def lexicalScore (hits total : ℕ) : ℚ :=
  if mkRat 98 100 ≤ mkRat (6 * total + 4 * hits) (10 * total) then mkRat 98 100
  else mkRat (6 * total + 4 * hits) (10 * total)

/-- The `hits` of one chunk in the lexical pass (middleware line 672): the
search tokens occurring in the chunk's lower-cased text. -/
def lexicalHits (uniqueTokens : List String) (c : RChunk) : List String :=
  (searchTokensOf uniqueTokens).filter (fun tok => containsSub tok.data (lowerCL c.text))

/-- The per-chunk body of the lexical pass (the arrow function of
middleware lines 665-714): skip chunks without text, chunks missing a
required case id, and chunks without a token hit; otherwise emit the
scored lexical match. -/
def lexMatchOfChunk (floppyId : String) (uniqueTokens caseIdsLower : List String)
    (p : ℕ × RChunk) : Option VMatch :=
  if p.2.text = "" then none
  else
    if ! caseIdsLower.isEmpty &&
        ! caseIdsLower.any (fun i => containsSub i.data (lowerCL p.2.text)) then
      none
    else
      if (lexicalHits uniqueTokens p.2).isEmpty then none
      else
        some
          { id := resolveChunkId floppyId p.1 p.2
            score := lexicalScore (lexicalHits uniqueTokens p.2).length
              (searchTokensOf uniqueTokens).length
            metadata :=
              { p.2.metadata with
                origin := some (jsOrStr p.2.metadata.origin "lexical")
                chunkId := some (resolveChunkId floppyId p.1 p.2)
                sourceName := some (sourceLabel p.2 (resolveChunkId floppyId p.1 p.2))
                keywords := dedupFirst (cleanKeywords p.2.metadata.keywords ++
                  lexicalHits uniqueTokens p.2 ++
                  (matchedCaseIds caseIdsLower p.2).map upperStr)
                text := some p.2.text } }

/-- The lexical pass (middleware lines 660-719): for every locally held
chunk whose lower-cased text contains at least one search token — and,
when the query carries case ids, also contains one of them — emit a match
scored by token overlap and tagged lexical unless the chunk metadata
already carries an origin. -/
def lexicalMatches (floppyId : String) (chunks : List RChunk)
    (uniqueTokens : List String) (caseIdsLower : List String) : List VMatch :=
  if uniqueTokens.isEmpty then []
  else (withIdx chunks).filterMap (lexMatchOfChunk floppyId uniqueTokens caseIdsLower)

/-- Wrapping of a locally synthesised match into the aggregated pool
(middleware lines 721-736): the target is reconstructed from the match's
own metadata, with empty strings collapsing to null. -/
def toPoolEntry (m : VMatch) : Target × VMatch :=
  ({ indexName := jsOrNull m.metadata.pineconeIndex
     ns := jsOrNull m.metadata.pineconeNamespace }, m)

/-- The aggregated candidate pool of one retrieval call, in push order:
vector matches per target, then exact-id matches, then lexical matches. -/
def aggregatedFor (ctx : ProviderCtx) (text : String) (limit : ℕ)
    (fetch : Target → ℕ → Option (List VMatch)) : List (Target × VMatch) :=
  vectorPool ctx.targets fetch limit ++
    (caseMatches ctx.floppyId ctx.knowledgeChunks
      ((extractCaseIdsFromText text).map lowerStr)).map toPoolEntry ++
    (lexicalMatches ctx.floppyId ctx.knowledgeChunks
      (dedupFirst (lexTokens (lowerCL text)))
      ((extractCaseIdsFromText text).map lowerStr)).map toPoolEntry

/-- Stable insertion of a pool entry into a list already sorted by
descending score: the new, originally earlier entry goes in front of every
entry of equal score. -/
def insertByScore (x : Target × VMatch) :
    List (Target × VMatch) → List (Target × VMatch)
  | [] => [x]
  | y :: ys =>
    if x.2.score < y.2.score then y :: insertByScore x ys
    else x :: y :: ys

/-- The `aggregated.sort((a, b) => (b.match?.score ?? 0) - (a.match?.score
?? 0))` of middleware line 743: a stable sort by descending score, modelled
by stable insertion sort (which equals the output of any stable sort under
a consistent comparator). -/
def sortPool : List (Target × VMatch) → List (Target × VMatch)
  | [] => []
  | x :: xs => insertByScore x (sortPool xs)

/-- The snippet selection of middleware lines 752-756: the trimmed
metadata text if non-empty, else the trimmed metadata snippet if
non-empty, else the empty string. -/
def snippetOf (md : RMeta) : String :=
  if (match md.text with | some t => strTrim t | none => "") ≠ "" then
    (match md.text with | some t => strTrim t | none => "")
  else
    (match md.snippet with | some t => strTrim t | none => "")

/-- The deduplication identifier of middleware line 758:
`metadata.chunkId || metadata.id || match.id`. -/
def docIdOf (m : VMatch) : String :=
  jsOrStr m.metadata.chunkId (jsOrStr m.metadata.mid m.id)

/-- The result record built for one kept pool entry (middleware lines
782-792, projected onto the modelled fields). -/
def mkRes (e : Target × VMatch) : RResult :=
  { score := e.2.score
    docId := docIdOf e.2
    content := snippetOf e.2.metadata
    metaOrigin := e.2.metadata.origin }

/-- The result-building walk of middleware lines 745-793: stop at the
limit, skip entries without a usable snippet, skip empty or already seen
deduplication identifiers, and append one result per kept entry. -/
def dedupLoop (limit : ℕ) :
    List (Target × VMatch) → List String → List RResult → List RResult
  | [], _, results => results
  | e :: rest, seen, results =>
    if limit ≤ results.length then results
    else
      if snippetOf e.2.metadata = "" then dedupLoop limit rest seen results
      else
        if docIdOf e.2 = "" || decide (docIdOf e.2 ∈ seen) then
          dedupLoop limit rest seen results
        else
          dedupLoop limit rest (docIdOf e.2 :: seen) (results ++ [mkRes e])

/-- Model of the retrieval closure returned by
`createPineconeMemoryProvider` (middleware lines 569-824).  `embedResult`
is the outcome of embedding the trimmed query (`none` models a thrown
embedding error, an empty vector models a malformed response); `fetch` is
the per-target vector query oracle. -/
def retrieveModel (ctx : ProviderCtx) (query : String) (topK : ℕ)
    (embedResult : Option (List ℚ))
    (fetch : Target → ℕ → Option (List VMatch)) : List RResult :=
  if strTrim query = "" then []
  else
    match embedResult with
    | none => []
    | some vector =>
      if vector.isEmpty then []
      else
        if (aggregatedFor ctx (strTrim query) (retrieveLimit topK ctx.maxTopK)
            fetch).isEmpty then []
        else
          dedupLoop (max 1 (retrieveLimit topK ctx.maxTopK))
            (sortPool (aggregatedFor ctx (strTrim query)
              (retrieveLimit topK ctx.maxTopK) fetch))
            [] []

/-- The stop-word list captured by `createPineconeMemoryProvider`
(middleware lines 536-543).  In the source it is consulted only by the
keyword extraction used for citation display, not by the lexical matching
pass. -/
def stopWords : List String :=
  ["the", "and", "for", "with", "that", "this", "from", "have", "your", "will",
   "into", "about", "there", "their", "when", "what", "which", "while", "where",
   "these", "those", "been", "being", "more", "some", "than", "then", "them",
   "they", "could", "would", "should", "because", "through", "using", "given",
   "after", "before", "during", "within", "between", "among", "over", "under",
   "into", "onto", "also", "just", "very", "each", "other", "every", "such",
   "amongst", "maybe", "might", "much", "many", "like", "said", "does", "done",
   "only", "even", "well", "keep", "know"]

/-- Modelled from the spec (claim formalisation only): the surviving-token
list that claim C2 describes — the unique query tokens with the stop words
filtered out.  The source applies no such filter in the lexical pass; this
definition exists to state that claim. -/
def claimSurvivingTokens (query : String) : List String :=
  (dedupFirst (lexTokens (lowerCL query))).filter (fun t => ! stopWords.contains t)

/-! ### Predicates used by the statements and proofs -/

/-- A character list entirely free of whitespace; a chunk with this
property consists of a single whitespace-delimited token. -/
def noWsChunk (c : List Char) : Prop :=
  ∀ ch ∈ c, jsWs ch = false

/-- A well-formed word list: every word is non-empty and whitespace
free (the shape produced by `splitWs`). -/
def cleanWords (ws : List (List Char)) : Prop :=
  ∀ w ∈ ws, w ≠ [] ∧ noWsChunk w

/-- Non-whitespace first and last characters (the shape of a produced
chunk, under which a trim is the identity). -/
def noWsEdges (l : List Char) : Prop :=
  (∀ c, l.head? = some c → jsWs c = false) ∧
    (∀ c, l.getLast? = some c → jsWs c = false)

/-! ## Lemmas: trimming, splitting and joining -/

theorem dropWhile_eq_self_of_head {p : Char → Bool} {l : List Char}
    (h : ∀ c, l.head? = some c → p c = false) : l.dropWhile p = l := by
  cases l with
  | nil => rfl
  | cons c t => simp [List.dropWhile, h c rfl]

theorem trimChars_eq_self {l : List Char} (h : noWsEdges l) : trimChars l = l := by
  unfold trimChars
  rw [dropWhile_eq_self_of_head h.1, dropWhile_eq_self_of_head, List.reverse_reverse]
  intro c hc
  exact h.2 c (by rwa [List.head?_reverse] at hc)

theorem splitWsF_fuel_irrel :
    ∀ (f g : ℕ) (l : List Char), l.length < f → l.length < g →
      splitWsF f l = splitWsF g l := by
  intro f
  induction f with
  | zero => intro g l hf _; omega
  | succ f ih =>
    intro g l hf hg
    cases g with
    | zero => omega
    | succ g =>
      cases l with
      | nil => rfl
      | cons c rest =>
        simp only [List.length_cons] at hf hg
        by_cases hc : jsWs c
        · simp only [splitWsF, hc, if_true]
          exact ih g rest (by omega) (by omega)
        · simp only [splitWsF, hc, Bool.false_eq_true, if_false, List.cons.injEq,
            true_and]
          have hdw : (rest.dropWhile (fun d => ! jsWs d)).length ≤ rest.length :=
            (List.dropWhile_sublist _).length_le
          exact ih g _ (by omega) (by omega)

theorem splitWs_nil : splitWs [] = [] := rfl

theorem splitWs_cons_ws {c : Char} (rest : List Char) (h : jsWs c = true) :
    splitWs (c :: rest) = splitWs rest := by
  simp only [splitWs, List.length_cons, splitWsF, h, if_true]

theorem splitWs_cons_not {c : Char} (rest : List Char) (h : jsWs c = false) :
    splitWs (c :: rest) =
      (c :: rest.takeWhile (fun d => ! jsWs d)) ::
        splitWs (rest.dropWhile (fun d => ! jsWs d)) := by
  simp only [splitWs, List.length_cons, splitWsF, h, Bool.false_eq_true, if_false,
    List.cons.injEq, true_and]
  have hdw : (rest.dropWhile (fun d => ! jsWs d)).length ≤ rest.length :=
    (List.dropWhile_sublist _).length_le
  exact splitWsF_fuel_irrel _ _ _ (by omega) (by omega)

theorem splitWs_cleanWords_aux :
    ∀ (n : ℕ) (l : List Char), l.length ≤ n → cleanWords (splitWs l) := by
  intro n
  induction n with
  | zero =>
    intro l hl
    have : l = [] := List.length_eq_zero.mp (by omega)
    subst this
    intro w hw; simp [splitWs_nil] at hw
  | succ n ih =>
    intro l hl
    cases l with
    | nil => intro w hw; simp [splitWs_nil] at hw
    | cons c rest =>
      simp only [List.length_cons] at hl
      by_cases hc : jsWs c
      · rw [splitWs_cons_ws rest hc]
        exact ih rest (by omega)
      · rw [splitWs_cons_not rest (by simpa using hc)]
        intro w hw
        rcases List.mem_cons.mp hw with hw | hw
        · subst hw
          refine ⟨by simp, ?_⟩
          intro ch hch
          rcases List.mem_cons.mp hch with h1 | h1
          · subst h1; simpa using hc
          · have := List.mem_takeWhile_imp h1
            simpa using this
        · have hdw : (rest.dropWhile (fun d => ! jsWs d)).length ≤ rest.length :=
            (List.dropWhile_sublist _).length_le
          exact ih _ (by omega) w hw

theorem splitWs_cleanWords (l : List Char) : cleanWords (splitWs l) :=
  splitWs_cleanWords_aux l.length l (Nat.le_refl _)

theorem joinWords_cons_cons (a b : List Char) (t : List (List Char)) :
    joinWords (a :: b :: t) = a ++ ' ' :: joinWords (b :: t) := by
  rfl

theorem joinWords_append_single (ws : List (List Char)) (w : List Char) (h : ws ≠ []) :
    joinWords (ws ++ [w]) = joinWords ws ++ ' ' :: w := by
  induction ws with
  | nil => cases h rfl
  | cons a t ih =>
    cases t with
    | nil => simp [joinWords]
    | cons b t2 =>
      have hrec := ih (by simp)
      simp only [List.cons_append] at hrec ⊢
      rw [joinWords_cons_cons, joinWords_cons_cons, hrec]
      simp

theorem joinWords_ne_nil {ws : List (List Char)} (h : cleanWords ws) (hne : ws ≠ []) :
    joinWords ws ≠ [] := by
  cases ws with
  | nil => cases hne rfl
  | cons a t =>
    cases t with
    | nil =>
      have := (h a (by simp)).1
      simpa [joinWords] using this
    | cons b t2 =>
      have := (h a (by simp)).1
      rw [joinWords_cons_cons]
      simp [this]

theorem joinWords_noWsEdges {ws : List (List Char)} (h : cleanWords ws) :
    noWsEdges (joinWords ws) := by
  induction ws with
  | nil => exact ⟨by intro c hc; simp [joinWords] at hc, by intro c hc; simp [joinWords] at hc⟩
  | cons a t ih =>
    have ha := h a (by simp)
    have ht : cleanWords t := fun w hw => h w (by simp [hw])
    cases t with
    | nil =>
      refine ⟨?_, ?_⟩
      · intro c hc
        exact ha.2 c (List.mem_of_mem_head? (by simpa [joinWords] using hc))
      · intro c hc
        have : c ∈ a := List.mem_of_mem_getLast? (by simpa [joinWords] using hc)
        exact ha.2 c this
    | cons b t2 =>
      have ihe := ih ht
      have hjnn : joinWords (b :: t2) ≠ [] := joinWords_ne_nil ht (by simp)
      refine ⟨?_, ?_⟩
      · intro c hc
        rw [joinWords_cons_cons, List.head?_append_of_ne_nil _ ha.1] at hc
        exact ha.2 c (List.mem_of_mem_head? hc)
      · intro c hc
        rw [joinWords_cons_cons, List.getLast?_append_of_ne_nil _ (by simp)] at hc
        cases hj : (joinWords (b :: t2)) with
        | nil => cases hjnn hj
        | cons x xs =>
          rw [hj, List.getLast?_cons_cons] at hc
          exact ihe.2 c (by rw [hj]; exact hc)

theorem joinWords_len_append (ws : List (List Char)) (w : List Char) (h : ws ≠ []) :
    (joinWords (ws ++ [w])).length = (joinWords ws).length + 1 + w.length := by
  rw [joinWords_append_single ws w h]
  simp
  omega

theorem pushCurrent_nil (chunks : List (List Char)) : pushCurrent chunks [] = chunks := by
  simp [pushCurrent]

theorem pushCurrent_eq {current : List (List Char)} (chunks : List (List Char))
    (h : cleanWords current) (hne : current ≠ []) :
    pushCurrent chunks current = chunks ++ [joinWords current] := by
  have hjoin : trimChars (joinWords current) = joinWords current :=
    trimChars_eq_self (joinWords_noWsEdges h)
  have hnn : joinWords current ≠ [] := joinWords_ne_nil h hne
  simp [pushCurrent, hne, hjoin, hnn]

/-! ## Lemmas: the greedy packing loop -/

theorem concat_eq_append_doubleton {α : Type} {chunks init : List α} {j prev tl : α}
    (h : chunks ++ [j] = init ++ [prev, tl]) :
    j = tl ∧ chunks = init ++ [prev] := by
  have h2 : chunks ++ [j] = (init ++ [prev]) ++ [tl] := by simpa using h
  constructor
  · have := congrArg List.getLast? h2
    simpa [List.getLast?_concat] using this
  · have := congrArg List.dropLast h2
    simpa [List.dropLast_concat] using this

theorem packLoop_invariant (cs : ℕ) (ws : List (List Char)) :
    ∀ (current : List (List Char)) (cl : ℕ) (chunks : List (List Char)),
    cleanWords ws → cleanWords current →
    (joinWords current).length ≤ cl → cl ≤ (joinWords current).length + 1 →
    (current = [] → cl = 0) → (current = [] → chunks = []) →
    (∀ c ∈ chunks, (c.length ≤ cs ∨ noWsChunk c) ∧ c ≠ [] ∧ noWsEdges c) →
    (current ≠ [] → (joinWords current).length ≤ cs ∨ ∃ w, current = [w]) →
    (∀ lc, chunks.getLast? = some lc → cs ≤ lc.length + 1 + (joinWords current).length) →
    (∀ c ∈ packLoop cs ws current cl chunks,
      (c.length ≤ cs ∨ noWsChunk c) ∧ c ≠ [] ∧ noWsEdges c) ∧
    (∀ init prev tl, packLoop cs ws current cl chunks = init ++ [prev, tl] →
      cs ≤ prev.length + 1 + tl.length) := by
  induction ws with
  | nil =>
    intro current cl chunks _ hcur h3 h4 h5 h11 h6 h7 h8
    by_cases hc : current = []
    · subst hc
      rw [h11 rfl]
      simp only [packLoop, pushCurrent_nil]
      exact ⟨by intro c hc2; simp at hc2, by intro init prev tl h; simp at h⟩
    · have hres : packLoop cs [] current cl chunks = chunks ++ [joinWords current] := by
        simp only [packLoop]
        exact pushCurrent_eq chunks hcur hc
      rw [hres]
      constructor
      · intro c hcmem
        rcases List.mem_append.mp hcmem with hm | hm
        · exact h6 c hm
        · have hcj : c = joinWords current := by simpa using hm
          subst hcj
          refine ⟨?_, joinWords_ne_nil hcur hc, joinWords_noWsEdges hcur⟩
          rcases h7 hc with hle | ⟨w, hw⟩
          · exact Or.inl hle
          · subst hw
            exact Or.inr (by simpa [joinWords] using (hcur w (by simp)).2)
      · intro init prev tl heq
        obtain ⟨hj, hchunks⟩ := concat_eq_append_doubleton heq
        have hlast : chunks.getLast? = some prev := by
          rw [hchunks]; exact List.getLast?_concat _
        have := h8 prev hlast
        rw [← hj]
        omega
  | cons w ws2 ih =>
    intro current cl chunks hws hcur h3 h4 h5 h11 h6 h7 h8
    have hwclean : w ≠ [] ∧ noWsChunk w := hws w (by simp)
    have hws2 : cleanWords ws2 := fun v hv => hws v (by simp [hv])
    by_cases hc : current = []
    · -- the buffer is empty: the flush guard is false and the word starts the buffer
      subst hc
      have hcl : cl = 0 := h5 rfl
      have hch : chunks = [] := h11 rfl
      subst hcl; subst hch
      have hres : packLoop cs (w :: ws2) [] 0 [] = packLoop cs ws2 [w] w.length [] := by
        simp [packLoop]
      rw [hres]
      apply ih [w] w.length []
      · exact hws2
      · intro v hv; exact hws v (by simp [List.mem_cons.mp hv |>.elim (fun h => Or.inl h) (fun h => by simp at h)])
      · simp [joinWords]
      · simp [joinWords]
      · intro h; simp at h
      · intro h; rfl
      · intro c hcm; simp at hcm
      · intro _; exact Or.inr ⟨w, rfl⟩
      · intro lc hlc; simp at hlc
    · -- the buffer is non-empty
      have hjnn : joinWords current ≠ [] := joinWords_ne_nil hcur hc
      have hjpos : 1 ≤ (joinWords current).length := List.length_pos.mpr hjnn
      have hclpos : cl ≠ 0 := by omega
      have hadd : (w.length + (if cl = 0 then 0 else 1)) = w.length + 1 := by
        simp [hclpos]
      by_cases hlt : cs < cl + (w.length + (if cl = 0 then 0 else 1))
      · -- flush branch
        have hres : packLoop cs (w :: ws2) current cl chunks =
            packLoop cs ws2 [w] (w.length + (if cl = 0 then 0 else 1))
              (pushCurrent chunks current) := by
          simp only [packLoop]
          rw [if_pos]
          simp [hlt, hc, List.isEmpty_iff]
        rw [hres, pushCurrent_eq chunks hcur hc, hadd]
        apply ih [w] (w.length + 1) (chunks ++ [joinWords current])
        · exact hws2
        · intro v hv
          have : v = w := by simpa using hv
          subst this; exact hwclean
        · simp [joinWords]
        · simp [joinWords]
        · intro h; simp at h
        · intro h; simp at h
        · intro c hcm
          rcases List.mem_append.mp hcm with hm | hm
          · exact h6 c hm
          · have hcj : c = joinWords current := by simpa using hm
            subst hcj
            refine ⟨?_, hjnn, joinWords_noWsEdges hcur⟩
            rcases h7 hc with hle | ⟨w0, hw0⟩
            · exact Or.inl hle
            · subst hw0
              exact Or.inr (by simpa [joinWords] using (hcur w0 (by simp)).2)
        · intro _; exact Or.inr ⟨w, rfl⟩
        · intro lc hlc
          have hlc2 : joinWords current = lc := by
            simpa [List.getLast?_concat] using hlc
          subst hlc2
          rw [hadd] at hlt
          simp only [joinWords]
          omega
      · -- grow branch
        have hres : packLoop cs (w :: ws2) current cl chunks =
            packLoop cs ws2 (current ++ [w])
              (cl + (w.length + (if cl = 0 then 0 else 1))) chunks := by
          simp only [packLoop]
          rw [if_neg]
          simp [hlt]
        rw [hres]
        have hjapp : (joinWords (current ++ [w])).length =
            (joinWords current).length + 1 + w.length :=
          joinWords_len_append current w hc
        apply ih (current ++ [w]) (cl + (w.length + (if cl = 0 then 0 else 1))) chunks
        · exact hws2
        · intro v hv
          rcases List.mem_append.mp hv with hm | hm
          · exact hcur v hm
          · have : v = w := by simpa using hm
            subst this; exact hwclean
        · rw [hjapp, hadd]; omega
        · rw [hjapp, hadd]; omega
        · intro h; simp at h
        · intro h; simp at h
        · exact h6
        · intro _
          left
          rw [hjapp]
          rw [hadd] at hlt
          omega
        · intro lc hlc
          have := h8 lc hlc
          rw [hjapp]
          omega

/-! ## Lemmas: splitWs structure -/

theorem takeWhile_all_append {p : Char → Bool} {l1 l2 : List Char}
    (h : ∀ c ∈ l1, p c = true) :
    (l1 ++ l2).takeWhile p = l1 ++ l2.takeWhile p := by
  induction l1 with
  | nil => simp
  | cons a t ih =>
    have ha := h a (by simp)
    simp [List.takeWhile, ha, ih (fun c hc => h c (by simp [hc]))]

theorem dropWhile_all_append {p : Char → Bool} {l1 l2 : List Char}
    (h : ∀ c ∈ l1, p c = true) :
    (l1 ++ l2).dropWhile p = l2.dropWhile p := by
  induction l1 with
  | nil => simp
  | cons a t ih =>
    have ha := h a (by simp)
    simp [List.dropWhile, ha, ih (fun c hc => h c (by simp [hc]))]

theorem splitWs_singleton {l : List Char} (hne : l ≠ []) (h : noWsChunk l) :
    splitWs l = [l] := by
  cases l with
  | nil => cases hne rfl
  | cons c t =>
    have hc : jsWs c = false := h c (by simp)
    rw [splitWs_cons_not t hc]
    have htk : t.takeWhile (fun d => ! jsWs d) = t := by
      rw [List.takeWhile_eq_self_iff]
      intro d hd
      simp [h d (by simp [hd])]
    have hdr : t.dropWhile (fun d => ! jsWs d) = [] := by
      rw [List.dropWhile_eq_nil_iff]
      intro d hd
      simp [h d (by simp [hd])]
    rw [htk, hdr, splitWs_nil]

theorem splitWs_word_append {w : List Char} (t : List Char) (hne : w ≠ [])
    (h : noWsChunk w) : splitWs (w ++ ' ' :: t) = w :: splitWs t := by
  cases w with
  | nil => cases hne rfl
  | cons c w2 =>
    have hc : jsWs c = false := h c (by simp)
    have hall : ∀ d ∈ w2, (fun d => ! jsWs d) d = true := by
      intro d hd; simp [h d (by simp [hd])]
    have hsp : jsWs ' ' = true := by decide
    rw [List.cons_append, splitWs_cons_not _ hc,
      takeWhile_all_append hall, dropWhile_all_append hall]
    have h1 : (' ' :: t).takeWhile (fun d => ! jsWs d) = [] := by
      simp [List.takeWhile, hsp]
    have h2 : (' ' :: t).dropWhile (fun d => ! jsWs d) = ' ' :: t := by
      simp [List.dropWhile, hsp]
    rw [h1, h2, splitWs_cons_ws t hsp]
    simp

/-! ## Lemmas: chunkText bounds -/

theorem good_to_claim_form {cs : ℕ} {c : List Char}
    (hg : c.length ≤ cs ∨ noWsChunk c) (hne : c ≠ []) :
    c.length ≤ cs ∨ ∃ w ∈ splitWs c, cs < w.length := by
  by_cases hlen : c.length ≤ cs
  · exact Or.inl hlen
  · rcases hg with h | h
    · exact Or.inl h
    · refine Or.inr ⟨c, ?_, by omega⟩
      rw [splitWs_singleton hne h]
      simp

theorem merged_edges {prev tail : List Char} (hpe : noWsEdges prev)
    (hte : noWsEdges tail) (hpn : prev ≠ []) (htn : tail ≠ []) :
    noWsEdges (prev ++ ' ' :: tail) := by
  constructor
  · intro c hc
    rw [List.head?_append_of_ne_nil _ hpn] at hc
    exact hpe.1 c hc
  · intro c hc
    rw [List.getLast?_append_of_ne_nil _ (by simp)] at hc
    cases tail with
    | nil => cases htn rfl
    | cons x xs =>
      rw [List.getLast?_cons_cons] at hc
      exact hte.2 c hc

theorem merged_length (prev tail : List Char) :
    (prev ++ ' ' :: tail).length = prev.length + 1 + tail.length := by
  simp; omega

theorem packedChunks_facts (opts : ChunkOptions) (text : List Char) :
    (∀ c ∈ packedChunks opts text,
      (c.length ≤ opts.chunkSize ∨ noWsChunk c) ∧ c ≠ [] ∧ noWsEdges c) ∧
    (∀ init prev tl, packedChunks opts text = init ++ [prev, tl] →
      opts.chunkSize ≤ prev.length + 1 + tl.length) := by
  apply packLoop_invariant opts.chunkSize (splitWs (normalizeWhitespace text)) [] 0 []
  · exact splitWs_cleanWords _
  · intro w hw; simp at hw
  · simp [joinWords]
  · simp [joinWords]
  · intro _; rfl
  · intro _; rfl
  · intro c hc; simp at hc
  · intro h; cases h rfl
  · intro lc hlc; simp at hlc

theorem chunkText_eq_mergeSmallTail (opts : ChunkOptions) (text : List Char) :
    chunkText opts text = [] ∨
      chunkText opts text = mergeSmallTail opts.minChunkSize (packedChunks opts text) := by
  unfold chunkText
  by_cases h1 : (normalizeWhitespace text).isEmpty
  · simp [h1]
  · by_cases h2 : (splitWs (normalizeWhitespace text)).isEmpty
    · simp [h1, h2]
    · right
      simp [h1, h2, packedChunks]

theorem chunkText_bounds (opts : ChunkOptions) (text : List Char) :
    (∀ c ∈ (chunkText opts text).dropLast,
      c.length ≤ opts.chunkSize ∨ ∃ w ∈ splitWs c, opts.chunkSize < w.length) ∧
    (∀ lc, (chunkText opts text).getLast? = some lc →
      lc.length ≤ opts.chunkSize + opts.minChunkSize ∨
        ∃ w ∈ splitWs lc, opts.chunkSize < w.length) := by
  rcases chunkText_eq_mergeSmallTail opts text with hct | hct
  · rw [hct]
    exact ⟨by intro c hc; simp at hc, by intro lc hlc; simp at hlc⟩
  · rw [hct]
    obtain ⟨hgood, hlink⟩ := packedChunks_facts opts text
    rcases hrev : (packedChunks opts text).reverse with _ | ⟨tail, rest1⟩
    · have hp : packedChunks opts text = [] := by
        have := congrArg List.reverse hrev
        simpa using this
      rw [mergeSmallTail, hrev, hp]
      exact ⟨by intro c hc; simp at hc, by intro lc hlc; simp at hlc⟩
    · rcases rest1 with _ | ⟨prev, restRev⟩
      · have hp : packedChunks opts text = [tail] := by
          have := congrArg List.reverse hrev
          simpa using this
        rw [mergeSmallTail, hrev, hp]
        refine ⟨by intro c hc; simp at hc, ?_⟩
        intro lc hlc
        have hlc2 : tail = lc := by simpa using hlc
        rw [← hlc2]
        obtain ⟨hg, hne, _⟩ := hgood tail (by rw [hp]; simp)
        rcases good_to_claim_form hg hne with h | h
        · exact Or.inl (by omega)
        · exact Or.inr h
      · have hp : packedChunks opts text = restRev.reverse ++ [prev, tail] := by
          have := congrArg List.reverse hrev
          simpa using this
        have hprevmem : prev ∈ packedChunks opts text := by rw [hp]; simp
        have htailmem : tail ∈ packedChunks opts text := by rw [hp]; simp
        obtain ⟨hpg, hpn, hpe⟩ := hgood prev hprevmem
        obtain ⟨htg, htn, hte⟩ := hgood tail htailmem
        have hlinked : opts.chunkSize ≤ prev.length + 1 + tail.length :=
          hlink restRev.reverse prev tail hp
        rw [mergeSmallTail, hrev]
        by_cases hsm : tail.length < opts.minChunkSize
        · simp only [hsm, if_true]
          have htrim : trimChars (prev ++ ' ' :: tail) = prev ++ ' ' :: tail :=
            trimChars_eq_self (merged_edges hpe hte hpn htn)
          rw [htrim]
          constructor
          · intro c hc
            rw [List.dropLast_concat] at hc
            have hcmem : c ∈ packedChunks opts text := by
              rw [hp]
              refine List.mem_append.mpr (Or.inl hc)
            obtain ⟨hg, hne, _⟩ := hgood c hcmem
            exact good_to_claim_form hg hne
          · intro lc hlc
            rw [List.getLast?_concat] at hlc
            have hlc2 : prev ++ ' ' :: tail = lc := by simpa using hlc
            subst hlc2
            rw [merged_length]
            by_cases hpl : prev.length ≤ opts.chunkSize
            · exact Or.inl (by omega)
            · rcases hpg with h | h
              · omega
              · refine Or.inr ⟨prev, ?_, by omega⟩
                rw [splitWs_word_append tail hpn h]
                simp
        · simp only [hsm, if_false]
          rw [hp]
          constructor
          · intro c hc
            have hc2 : c ∈ restRev.reverse ++ [prev] := by
              rw [show restRev.reverse ++ [prev, tail] =
                (restRev.reverse ++ [prev]) ++ [tail] by simp,
                List.dropLast_concat] at hc
              exact hc
            have hcmem : c ∈ packedChunks opts text := by
              rw [hp]
              rcases List.mem_append.mp hc2 with h | h
              · exact List.mem_append.mpr (Or.inl h)
              · have : c = prev := by simpa using h
                subst this; simp
            obtain ⟨hg, hne, _⟩ := hgood c hcmem
            exact good_to_claim_form hg hne
          · intro lc hlc
            rw [show restRev.reverse ++ [prev, tail] =
              (restRev.reverse ++ [prev]) ++ [tail] by simp,
              List.getLast?_concat] at hlc
            have hlc2 : tail = lc := by simpa using hlc
            subst hlc2
            rcases good_to_claim_form htg htn with h | h
            · exact Or.inl (by omega)
            · exact Or.inr h

theorem chunkText_last_min (opts : ChunkOptions) (text : List Char)
    (hmin : opts.minChunkSize ≤ opts.chunkSize)
    (hlen : 1 < (chunkText opts text).length) :
    ∀ lc, (chunkText opts text).getLast? = some lc →
      opts.minChunkSize ≤ lc.length := by
  intro lc hlc
  rcases chunkText_eq_mergeSmallTail opts text with hct | hct
  · rw [hct] at hlen; simp at hlen
  · obtain ⟨hgood, hlink⟩ := packedChunks_facts opts text
    rcases hrev : (packedChunks opts text).reverse with _ | ⟨tail, rest1⟩
    · have hp : packedChunks opts text = [] := by
        have := congrArg List.reverse hrev
        simpa using this
      rw [hct, mergeSmallTail, hrev, hp] at hlen
      simp at hlen
    · rcases rest1 with _ | ⟨prev, restRev⟩
      · have hp : packedChunks opts text = [tail] := by
          have := congrArg List.reverse hrev
          simpa using this
        rw [hct, mergeSmallTail, hrev, hp] at hlen
        simp at hlen
      · have hp : packedChunks opts text = restRev.reverse ++ [prev, tail] := by
          have := congrArg List.reverse hrev
          simpa using this
        obtain ⟨_, hpn, hpe⟩ := hgood prev (by rw [hp]; simp)
        obtain ⟨_, htn, hte⟩ := hgood tail (by rw [hp]; simp)
        have hlinked : opts.chunkSize ≤ prev.length + 1 + tail.length :=
          hlink restRev.reverse prev tail hp
        rw [hct, mergeSmallTail, hrev] at hlc
        by_cases hsm : tail.length < opts.minChunkSize
        · simp only [hsm, if_true] at hlc
          rw [List.getLast?_concat] at hlc
          have htrim : trimChars (prev ++ ' ' :: tail) = prev ++ ' ' :: tail :=
            trimChars_eq_self (merged_edges hpe hte hpn htn)
          have hlc2 : trimChars (prev ++ ' ' :: tail) = lc := by simpa using hlc
          rw [htrim] at hlc2
          subst hlc2
          rw [merged_length]
          omega
        · simp only [hsm, if_false] at hlc
          rw [hp, show restRev.reverse ++ [prev, tail] =
            (restRev.reverse ++ [prev]) ++ [tail] by simp,
            List.getLast?_concat] at hlc
          have hlc2 : tail = lc := by simpa using hlc
          subst hlc2
          omega

/-! ## Claims C3 and C4: chunk size bounds -/

/-- Claim C3, counterexample: with chunkSize 5 and minChunkSize 3 the input
"aa bb cc" produces the single chunk "aa bb cc" of length 8 > 5, although
no whitespace-delimited token of the input exceeds 5 characters — the
small-tail merge step of `chunkText` can push the final chunk past chunkSize,
so the claimed bound (with the long-token exception as only escape) fails. -/
theorem claim_C3_counterexample :
    (chunkText ⟨5, 3⟩ ("aa bb cc".data)).map List.length = [8] ∧
    (splitWs ("aa bb cc".data)).all (fun w => decide (w.length ≤ 5)) = true := by
  decide

/-- Claim C3, amended: every chunk produced by `chunkText` other than the
last has length at most chunkSize unless it contains a single
whitespace-delimited token longer than chunkSize; the last chunk may
additionally absorb the merged small tail and has length at most
chunkSize + minChunkSize, again unless it contains a token longer than
chunkSize. -/
theorem claim_C3_chunk_bound (opts : ChunkOptions) (text : List Char) :
    (∀ c ∈ (chunkText opts text).dropLast,
      c.length ≤ opts.chunkSize ∨ ∃ w ∈ splitWs c, opts.chunkSize < w.length) ∧
    (∀ lc, (chunkText opts text).getLast? = some lc →
      lc.length ≤ opts.chunkSize + opts.minChunkSize ∨
        ∃ w ∈ splitWs lc, opts.chunkSize < w.length) :=
  chunkText_bounds opts text

/-- Claim C3, witness: the bound of `claim_C3_chunk_bound` evaluated on the
two chunks produced for "aaaa bbbb cccc" with chunkSize 5, minChunkSize 5. -/
theorem claim_C3_chunk_bound_witness :
    (("aaaa".data).length ≤ 5 ∨ ∃ w ∈ splitWs ("aaaa".data), 5 < w.length) ∧
    (("bbbb cccc".data).length ≤ 5 + 5 ∨
      ∃ w ∈ splitWs ("bbbb cccc".data), 5 < w.length) :=
  ⟨(claim_C3_chunk_bound ⟨5, 5⟩ ("aaaa bbbb cccc".data)).1 ("aaaa".data) (by decide),
   (claim_C3_chunk_bound ⟨5, 5⟩ ("aaaa bbbb cccc".data)).2 ("bbbb cccc".data) (by decide)⟩

/-- Claim C4, counterexample: with chunkSize 5 and minChunkSize 5 the input
"aaaa bbbb cccc" chunks to ["aaaa", "bbbb cccc"]; the first chunk has
length 4 < minChunkSize although it is not the only chunk — only the FINAL
packed chunk is ever merged, chunks before it may stay arbitrarily small. -/
theorem claim_C4_counterexample :
    chunkText ⟨5, 5⟩ ("aaaa bbbb cccc".data) = ["aaaa".data, "bbbb cccc".data] ∧
    ("aaaa".data).length < 5 := by
  decide

/-- Claim C4, amended: when minChunkSize ≤ chunkSize and more than one chunk
is produced, the LAST chunk has length at least minChunkSize (a merged tail
reaches at least chunkSize); chunks other than the last carry no such lower
bound. -/
theorem claim_C4_last_chunk_min (opts : ChunkOptions) (text : List Char)
    (hmin : opts.minChunkSize ≤ opts.chunkSize)
    (hlen : 1 < (chunkText opts text).length) :
    ∀ lc, (chunkText opts text).getLast? = some lc →
      opts.minChunkSize ≤ lc.length :=
  chunkText_last_min opts text hmin hlen

/-- Claim C4, witness: the lower bound evaluated on the last chunk produced
for "aaaaa bbbbb" with chunkSize 5, minChunkSize 3. -/
theorem claim_C4_last_chunk_min_witness : 3 ≤ ("bbbbb".data).length :=
  claim_C4_last_chunk_min ⟨5, 3⟩ ("aaaaa bbbbb".data) (by decide) (by decide)
    ("bbbbb".data) (by decide)

/-! ## Claim C6: stable chunk identifiers -/

/-- Claim C6: with useStableIds set, the chunk id sequence does not depend
on the random-suffix oracle — re-chunking identical input yields identical
ids — and each id is the base id followed by a colon and the 1-based
ordinal. -/
theorem claim_C6_stable_ids (source : SourceRef) (opts : BuildOptions)
    (uuid1 uuid2 : ℕ → String) (text : List Char)
    (h : opts.useStableIds = true) :
    (buildChunkObjects source opts uuid1 text).map (fun c => c.id) =
      (buildChunkObjects source opts uuid2 text).map (fun c => c.id) ∧
    (buildChunkObjects source opts uuid1 text).map (fun c => c.id) =
      (withIdx (resolveSegments opts text)).map
        (fun p => jsOrStr opts.baseId source.id ++ ":" ++ toString (p.1 + 1)) := by
  constructor
  · simp [buildChunkObjects, h, List.map_map]
  · simp [buildChunkObjects, h, List.map_map]

/-- Claim C6, witness: identical id sequences for two different
random-suffix oracles on a concrete input. -/
theorem claim_C6_stable_ids_witness :
    (buildChunkObjects ⟨"src1", "manual", "notes"⟩
        { chunkSize := 5, minChunkSize := 3, useStableIds := true }
        (fun _ => "RA") ("aa bb cc dd".data)).map (fun c => c.id) =
      (buildChunkObjects ⟨"src1", "manual", "notes"⟩
        { chunkSize := 5, minChunkSize := 3, useStableIds := true }
        (fun _ => "RB") ("aa bb cc dd".data)).map (fun c => c.id) :=
  (claim_C6_stable_ids ⟨"src1", "manual", "notes"⟩
    { chunkSize := 5, minChunkSize := 3, useStableIds := true }
    (fun _ => "RA") (fun _ => "RB") ("aa bb cc dd".data) rfl).1

/-! ## Claim C9: sync of an emptied knowledge base -/

/-- Claim C9: a sync whose prepared chunk set is empty (every chunk absent
or with empty text after trimming) issues exactly one deleteAll against the
floppy's namespace in the tenant index — in particular it never calls the
embedding service and never upserts vectors. -/
theorem claim_C9_empty_sync_clears (tenantId : String) (floppy : Floppy)
    (embed : List String → Option (List (List ℚ))) (hashFn : String → String)
    (ht : tenantId ≠ "") (hprep : preparedChunks floppy = []) :
    syncFloppyToPinecone tenantId floppy embed hashFn =
      [SyncOp.deleteAllOp (sanitizeIndexName tenantId)
        (sanitizeNamespace ("floppy-" ++ floppy.id))] ∧
    ∀ op ∈ syncFloppyToPinecone tenantId floppy embed hashFn,
      (∀ ts, op ≠ SyncOp.embedRequest ts) ∧
      (∀ i n vs, op ≠ SyncOp.upsertOp i n vs) := by
  have heq : syncFloppyToPinecone tenantId floppy embed hashFn =
      [SyncOp.deleteAllOp (sanitizeIndexName tenantId)
        (sanitizeNamespace ("floppy-" ++ floppy.id))] := by
    unfold syncFloppyToPinecone
    simp [ht, hprep]
  refine ⟨heq, ?_⟩
  intro op hop
  rw [heq] at hop
  have : op = SyncOp.deleteAllOp (sanitizeIndexName tenantId)
      (sanitizeNamespace ("floppy-" ++ floppy.id)) := by simpa using hop
  subst this
  exact ⟨fun ts => by simp, fun i n vs => by simp⟩

/-- Claim C9, witness: a floppy holding one absent chunk, one object chunk
whose text trims to nothing and one whitespace legacy chunk syncs to
exactly one namespace clear. -/
theorem claim_C9_empty_sync_clears_witness :
    syncFloppyToPinecone "T1"
        ⟨"fl1", "Title", [KChunk.nullChunk,
          KChunk.obj none "   " none none none none, KChunk.legacy "  "]⟩
        (fun _ => none) (fun s => s) =
      [SyncOp.deleteAllOp (sanitizeIndexName "T1")
        (sanitizeNamespace ("floppy-" ++ "fl1"))] :=
  (claim_C9_empty_sync_clears "T1"
    ⟨"fl1", "Title", [KChunk.nullChunk,
      KChunk.obj none "   " none none none none, KChunk.legacy "  "]⟩
    (fun _ => none) (fun s => s) (by decide) (by decide)).1

/-! ## Lemmas: the stable sort by descending score -/

theorem insertByScore_perm (x : Target × VMatch) (l : List (Target × VMatch)) :
    List.Perm (insertByScore x l) (x :: l) := by
  induction l with
  | nil => exact List.Perm.refl _
  | cons y ys ih =>
    simp only [insertByScore]
    by_cases h : x.2.score < y.2.score
    · simp only [h, if_true]
      exact (ih.cons y).trans (List.Perm.swap x y ys)
    · simp only [h, if_false]
      exact List.Perm.refl _

theorem insertByScore_sorted {x : Target × VMatch} {l : List (Target × VMatch)}
    (hl : List.Pairwise (fun a b => b.2.score ≤ a.2.score) l) :
    List.Pairwise (fun a b => b.2.score ≤ a.2.score) (insertByScore x l) := by
  induction l with
  | nil => simp [insertByScore]
  | cons y ys ih =>
    rcases List.pairwise_cons.mp hl with ⟨hy, hys⟩
    simp only [insertByScore]
    by_cases h : x.2.score < y.2.score
    · simp only [h, if_true]
      refine List.pairwise_cons.mpr ⟨?_, ih hys⟩
      intro z hz
      have hz2 : z ∈ x :: ys := (insertByScore_perm x ys).mem_iff.mp hz
      rcases List.mem_cons.mp hz2 with hz3 | hz3
      · subst hz3; exact le_of_lt h
      · exact hy z hz3
    · simp only [h, if_false]
      refine List.pairwise_cons.mpr ⟨?_, hl⟩
      intro z hz
      rcases List.mem_cons.mp hz with hz3 | hz3
      · subst hz3; exact le_of_not_lt h
      · exact le_trans (hy z hz3) (le_of_not_lt h)

theorem sortPool_perm (l : List (Target × VMatch)) : List.Perm (sortPool l) l := by
  induction l with
  | nil => exact List.Perm.refl _
  | cons x xs ih =>
    exact (insertByScore_perm x (sortPool xs)).trans (ih.cons x)

theorem sortPool_sorted (l : List (Target × VMatch)) :
    List.Pairwise (fun a b => b.2.score ≤ a.2.score) (sortPool l) := by
  induction l with
  | nil => simp [sortPool]
  | cons x xs ih => exact insertByScore_sorted ih

theorem sortPool_head_of_strict_max {l : List (Target × VMatch)}
    {x : Target × VMatch} (hx : x ∈ l)
    (hmax : ∀ y ∈ l, y ≠ x → y.2.score < x.2.score) :
    (sortPool l).head? = some x := by
  have hperm := sortPool_perm l
  have hxs : x ∈ sortPool l := hperm.mem_iff.mpr hx
  have hsorted := sortPool_sorted l
  cases hs : sortPool l with
  | nil => rw [hs] at hxs; simp at hxs
  | cons h t =>
    rw [hs] at hxs hsorted
    by_cases hhx : h = x
    · simp [hhx]
    · have hhl : h ∈ l := hperm.mem_iff.mp (by rw [hs]; simp)
      have hlt : h.2.score < x.2.score := hmax h hhl hhx
      have hxt : x ∈ t := by
        rcases List.mem_cons.mp hxs with h1 | h1
        · cases hhx h1.symm
        · exact h1
      have hge : x.2.score ≤ h.2.score :=
        (List.pairwise_cons.mp hsorted).1 x hxt
      exact absurd hge (not_le.mpr hlt)

/-! ## Lemmas: the dedup walk -/

theorem dedupLoop_length_le (limit : ℕ) :
    ∀ (l : List (Target × VMatch)) (seen : List String) (acc : List RResult),
      acc.length ≤ limit → (dedupLoop limit l seen acc).length ≤ limit := by
  intro l
  induction l with
  | nil => intro seen acc h; simpa [dedupLoop] using h
  | cons e rest ih =>
    intro seen acc h
    simp only [dedupLoop]
    by_cases hstop : limit ≤ acc.length
    · simpa [hstop] using h
    · simp only [hstop, if_false]
      by_cases hsn : snippetOf e.2.metadata = ""
      · simp only [hsn, if_true]
        exact ih seen acc h
      · simp only [hsn, if_false]
        by_cases hdoc : (docIdOf e.2 = "" || decide (docIdOf e.2 ∈ seen)) = true
        · simp only [hdoc, if_true]
          exact ih seen acc h
        · simp only [hdoc, if_false]
          refine ih _ _ ?_
          simp only [List.length_append, List.length_cons, List.length_nil]
          omega

theorem dedupLoop_acc_head (limit : ℕ) :
    ∀ (l : List (Target × VMatch)) (seen : List String) (acc : List RResult),
      acc ≠ [] → (dedupLoop limit l seen acc).head? = acc.head? := by
  intro l
  induction l with
  | nil => intro seen acc _; simp [dedupLoop]
  | cons e rest ih =>
    intro seen acc hacc
    simp only [dedupLoop]
    by_cases hstop : limit ≤ acc.length
    · simp [hstop]
    · simp only [hstop, if_false]
      by_cases hsn : snippetOf e.2.metadata = ""
      · simp only [hsn, if_true]; exact ih seen acc hacc
      · simp only [hsn, if_false]
        by_cases hdoc : (docIdOf e.2 = "" || decide (docIdOf e.2 ∈ seen)) = true
        · simp only [hdoc, if_true]; exact ih seen acc hacc
        · simp only [Bool.not_eq_true] at hdoc
          simp only [hdoc, Bool.false_eq_true, if_false]
          rw [ih _ _ (by simp)]
          cases acc with
          | nil => cases hacc rfl
          | cons a t => simp

theorem dedupLoop_sorted (limit : ℕ) :
    ∀ (l : List (Target × VMatch)) (seen : List String) (acc : List RResult),
      List.Pairwise (fun a b => b.2.score ≤ a.2.score) l →
      List.Pairwise (fun a b : RResult => b.score ≤ a.score) acc →
      (∀ r ∈ acc, ∀ e ∈ l, e.2.score ≤ r.score) →
      List.Pairwise (fun a b : RResult => b.score ≤ a.score)
        (dedupLoop limit l seen acc) := by
  intro l
  induction l with
  | nil => intro seen acc _ hacc _; simpa [dedupLoop] using hacc
  | cons e rest ih =>
    intro seen acc hl hacc hcross
    rcases List.pairwise_cons.mp hl with ⟨he, hrest⟩
    simp only [dedupLoop]
    by_cases hstop : limit ≤ acc.length
    · simpa [hstop] using hacc
    · simp only [hstop, if_false]
      by_cases hsn : snippetOf e.2.metadata = ""
      · simp only [hsn, if_true]
        exact ih seen acc hrest hacc
          (fun r hr p hp => hcross r hr p (by simp [hp]))
      · simp only [hsn, if_false]
        by_cases hdoc : (docIdOf e.2 = "" || decide (docIdOf e.2 ∈ seen)) = true
        · simp only [hdoc, if_true]
          exact ih seen acc hrest hacc
            (fun r hr p hp => hcross r hr p (by simp [hp]))
        · simp only [hdoc, if_false]
          refine ih _ _ hrest ?_ ?_
          · refine List.pairwise_append.mpr ⟨hacc, by simp, ?_⟩
            intro a ha b hb
            have hb2 : b = mkRes e := by simpa using hb
            subst hb2
            exact hcross a ha e (by simp)
          · intro r hr p hp
            rcases List.mem_append.mp hr with hr2 | hr2
            · exact hcross r hr2 p (by simp [hp])
            · have hr3 : r = mkRes e := by simpa using hr2
              subst hr3
              exact he p hp

theorem dedupLoop_nodup (limit : ℕ) :
    ∀ (l : List (Target × VMatch)) (seen : List String) (acc : List RResult),
      (acc.map (fun r => r.docId)).Nodup →
      (∀ r ∈ acc, r.docId ∈ seen) →
      ((dedupLoop limit l seen acc).map (fun r => r.docId)).Nodup := by
  intro l
  induction l with
  | nil => intro seen acc hacc _; simpa [dedupLoop] using hacc
  | cons e rest ih =>
    intro seen acc hacc hseen
    simp only [dedupLoop]
    by_cases hstop : limit ≤ acc.length
    · simpa [hstop] using hacc
    · simp only [hstop, if_false]
      by_cases hsn : snippetOf e.2.metadata = ""
      · simp only [hsn, if_true]; exact ih seen acc hacc hseen
      · simp only [hsn, if_false]
        by_cases hdoc : (docIdOf e.2 = "" || decide (docIdOf e.2 ∈ seen)) = true
        · simp only [hdoc, if_true]; exact ih seen acc hacc hseen
        · simp only [hdoc, if_false]
          have hnm : docIdOf e.2 ∉ seen := by
            simp only [Bool.or_eq_true, decide_eq_true_eq] at hdoc
            exact fun hmem => hdoc (Or.inr hmem)
          refine ih _ _ ?_ ?_
          · rw [List.map_append]
            refine List.nodup_append.mpr ⟨hacc, by simp [mkRes], ?_⟩
            intro a ha hb
            have hb2 : a = docIdOf e.2 := by simpa [mkRes] using hb
            subst hb2
            rcases List.mem_map.mp ha with ⟨r, hr, hrid⟩
            exact hnm (by rw [← hrid]; exact hseen r hr)
          · intro r hr
            rcases List.mem_append.mp hr with hr2 | hr2
            · exact List.mem_cons.mpr (Or.inr (hseen r hr2))
            · have hr3 : r = mkRes e := by simpa using hr2
              subst hr3
              exact List.mem_cons.mpr (Or.inl rfl)

theorem dedupLoop_max (limit : ℕ) :
    ∀ (l : List (Target × VMatch)) (seen : List String) (acc : List RResult),
      List.Pairwise (fun a b => b.2.score ≤ a.2.score) l →
      ∀ r ∈ dedupLoop limit l seen acc,
        r ∈ acc ∨ ∃ e ∈ l, r = mkRes e ∧ docIdOf e.2 ∉ seen ∧ docIdOf e.2 ≠ "" ∧
          ∀ p ∈ l, docIdOf p.2 = docIdOf e.2 → snippetOf p.2.metadata ≠ "" →
            p.2.score ≤ e.2.score := by
  intro l
  induction l with
  | nil =>
    intro seen acc _ r hr
    exact Or.inl (by simpa [dedupLoop] using hr)
  | cons e rest ih =>
    intro seen acc hl r hr
    rcases List.pairwise_cons.mp hl with ⟨he, hrest⟩
    simp only [dedupLoop] at hr
    by_cases hstop : limit ≤ acc.length
    · simp only [hstop, if_true] at hr
      exact Or.inl hr
    · simp only [hstop, if_false] at hr
      by_cases hsn : snippetOf e.2.metadata = ""
      · simp only [hsn, if_true] at hr
        rcases ih seen acc hrest r hr with h | ⟨p, hp, hrp, hps, hpne, hpmax⟩
        · exact Or.inl h
        · refine Or.inr ⟨p, by simp [hp], hrp, hps, hpne, ?_⟩
          intro q hq hqd hqs
          rcases List.mem_cons.mp hq with hq2 | hq2
          · subst hq2; exact absurd hsn hqs
          · exact hpmax q hq2 hqd hqs
      · simp only [hsn, if_false] at hr
        by_cases hdoc : (docIdOf e.2 = "" || decide (docIdOf e.2 ∈ seen)) = true
        · simp only [hdoc, if_true] at hr
          rcases ih seen acc hrest r hr with h | ⟨p, hp, hrp, hps, hpne, hpmax⟩
          · exact Or.inl h
          · refine Or.inr ⟨p, by simp [hp], hrp, hps, hpne, ?_⟩
            intro q hq hqd hqs
            rcases List.mem_cons.mp hq with hq2 | hq2
            · subst hq2
              simp only [Bool.or_eq_true, decide_eq_true_eq] at hdoc
              rcases hdoc with hd | hd
              · exact absurd (hqd ▸ hd) hpne
              · exact absurd (hqd ▸ hd) hps
            · exact hpmax q hq2 hqd hqs
        · simp only [hdoc, if_false] at hr
          simp only [Bool.or_eq_true, decide_eq_true_eq, not_or] at hdoc
          rcases ih _ _ hrest r hr with h | ⟨p, hp, hrp, hps, hpne, hpmax⟩
          · rcases List.mem_append.mp h with h2 | h2
            · exact Or.inl h2
            · have h3 : r = mkRes e := by simpa using h2
              refine Or.inr ⟨e, by simp, h3, ?_, ?_, ?_⟩
              · intro hmem
                exact hdoc.2 hmem
              · intro heq
                exact hdoc.1 heq
              · intro q hq hqd hqs
                rcases List.mem_cons.mp hq with hq2 | hq2
                · subst hq2; exact le_refl _
                · exact he q hq2
          · have hpse : docIdOf p.2 ∉ docIdOf e.2 :: seen := hps
            refine Or.inr ⟨p, by simp [hp], hrp, ?_, hpne, ?_⟩
            · intro hmem
              exact hpse (List.mem_cons.mpr (Or.inr hmem))
            · intro q hq hqd hqs
              rcases List.mem_cons.mp hq with hq2 | hq2
              · subst hq2
                exact absurd (hqd ▸ List.mem_cons_self _ _) hpse
              · exact hpmax q hq2 hqd hqs

theorem dedupLoop_first_kept (limit : ℕ) (e : Target × VMatch)
    (rest : List (Target × VMatch)) (hlim : 1 ≤ limit)
    (hsn : snippetOf e.2.metadata ≠ "") (hdoc : docIdOf e.2 ≠ "") :
    (dedupLoop limit (e :: rest) [] []).head? = some (mkRes e) := by
  simp only [dedupLoop]
  have hstop : ¬ limit ≤ ([] : List RResult).length := by simp; omega
  simp only [hstop, if_false, hsn, if_false]
  have hcond : (docIdOf e.2 = "" || decide (docIdOf e.2 ∈ ([] : List String))) = false := by
    simp [hdoc]
  simp only [hcond, Bool.false_eq_true, if_false]
  rw [dedupLoop_acc_head limit rest _ _ (by simp)]
  simp

/-! ## Lemmas: assembling the retrieval pipeline -/

theorem vectorPool_congr {targets : List Target}
    {f g : Target → ℕ → Option (List VMatch)} {limit : ℕ}
    (h : ∀ t ∈ targets, f t limit = g t limit) :
    vectorPool targets f limit = vectorPool targets g limit := by
  unfold vectorPool
  induction targets with
  | nil => rfl
  | cons t ts ih =>
    simp only [List.flatMap_cons]
    rw [h t (by simp), ih (fun u hu => h u (by simp [hu]))]

theorem retrieveLimit_pos (topK maxTopK : ℕ) : 1 ≤ retrieveLimit topK maxTopK :=
  Nat.le_max_left 1 _

theorem retrieveLimit_le_twenty (topK maxTopK : ℕ) : retrieveLimit topK maxTopK ≤ 20 := by
  unfold retrieveLimit
  exact Nat.max_le.mpr ⟨by omega, Nat.min_le_left _ _⟩

/-! ## Claim C8: results sorted by descending score -/

/-- Claim C8: the result list of every retrieval call is sorted by score in
non-increasing order. -/
theorem claim_C8_sorted_desc (ctx : ProviderCtx) (query : String) (topK : ℕ)
    (embedResult : Option (List ℚ)) (fetch : Target → ℕ → Option (List VMatch)) :
    List.Pairwise (fun a b : RResult => b.score ≤ a.score)
      (retrieveModel ctx query topK embedResult fetch) := by
  unfold retrieveModel
  by_cases hq : strTrim query = ""
  · simp [hq]
  · simp only [hq, if_false]
    cases embedResult with
    | none => simp
    | some v =>
      by_cases hv : v.isEmpty
      · simp [hv]
      · simp only [hv, Bool.false_eq_true, if_false]
        by_cases hagg : (aggregatedFor ctx (strTrim query)
            (retrieveLimit topK ctx.maxTopK) fetch).isEmpty
        · simp [hagg]
        · simp only [hagg, Bool.false_eq_true, if_false]
          exact dedupLoop_sorted _ _ _ _ (sortPool_sorted _) (by simp)
            (by intro r hr; simp at hr)

/-! ## Claim C7: deduplication by chunk identifier -/

/-- Claim C7: in every retrieval result the deduplication identifiers are
pairwise distinct, and a kept result's score dominates the score of every
aggregated candidate (from any origin) that carries the same identifier
and a usable snippet — the chunk keeps only its highest-scoring
instance. -/
theorem claim_C7_unique_docids (ctx : ProviderCtx) (query : String) (topK : ℕ)
    (embedResult : Option (List ℚ)) (fetch : Target → ℕ → Option (List VMatch)) :
    ((retrieveModel ctx query topK embedResult fetch).map (fun r => r.docId)).Nodup ∧
    ∀ r ∈ retrieveModel ctx query topK embedResult fetch,
      ∀ e ∈ aggregatedFor ctx (strTrim query) (retrieveLimit topK ctx.maxTopK) fetch,
        docIdOf e.2 = r.docId → snippetOf e.2.metadata ≠ "" →
          e.2.score ≤ r.score := by
  constructor
  · unfold retrieveModel
    by_cases hq : strTrim query = ""
    · simp [hq]
    · simp only [hq, if_false]
      cases embedResult with
      | none => simp
      | some v =>
        by_cases hv : v.isEmpty
        · simp [hv]
        · simp only [hv, Bool.false_eq_true, if_false]
          by_cases hagg : (aggregatedFor ctx (strTrim query)
              (retrieveLimit topK ctx.maxTopK) fetch).isEmpty
          · simp [hagg]
          · simp only [hagg, Bool.false_eq_true, if_false]
            exact dedupLoop_nodup _ _ _ _ (by simp) (by intro r hr; simp at hr)
  · intro r hr e he hdoc hsnip
    revert hr
    unfold retrieveModel
    by_cases hq : strTrim query = ""
    · simp [hq]
    · simp only [hq, if_false]
      cases embedResult with
      | none => simp
      | some v =>
        by_cases hv : v.isEmpty
        · simp [hv]
        · simp only [hv, Bool.false_eq_true, if_false]
          by_cases hagg : (aggregatedFor ctx (strTrim query)
              (retrieveLimit topK ctx.maxTopK) fetch).isEmpty
          · simp [hagg]
          · simp only [hagg, Bool.false_eq_true, if_false]
            intro hr
            rcases dedupLoop_max _ _ _ _ (sortPool_sorted _) r hr with
              h | ⟨p, hp, hrp, _, _, hpmax⟩
            · simp at h
            · have hes : e ∈ sortPool (aggregatedFor ctx (strTrim query)
                  (retrieveLimit topK ctx.maxTopK) fetch) :=
                (sortPool_perm _).mem_iff.mpr he
              have hdoc2 : docIdOf e.2 = docIdOf p.2 := by
                rw [hdoc, hrp]; rfl
              have := hpmax e hes hdoc2 hsnip
              rw [hrp]
              exact this

/-- Claim C7, witness: a chunk found both by a vector query (score 0.5)
and by the exact-id pass (score 0.999) under the same identifier appears
once in the result, and the dropped vector instance's score is dominated
by the kept result's score. -/
theorem claim_C7_unique_docids_witness :
    ((retrieveModel ⟨"f1",
        [{ id := some "c1", text := "Case CS12345 details about routers" }],
        [{ indexName := some "tenant-x", ns := some "ns" }], 6⟩
      "CS12345 router" 5 (some [mkRat 1 1])
      (fun _ _ => some [⟨"pinecone-id-1", mkRat 1 2,
        { chunkId := some "c1",
          text := some "Case CS12345 details about routers" }⟩])).map
      (fun r => r.docId)).Nodup ∧
    (⟨"pinecone-id-1", mkRat 1 2,
      { chunkId := some "c1",
        text := some "Case CS12345 details about routers" }⟩ : VMatch).score ≤
    (⟨mkRat 999 1000, "c1", "Case CS12345 details about routers",
      some "case-id"⟩ : RResult).score :=
  ⟨(claim_C7_unique_docids ⟨"f1",
      [{ id := some "c1", text := "Case CS12345 details about routers" }],
      [{ indexName := some "tenant-x", ns := some "ns" }], 6⟩
      "CS12345 router" 5 (some [mkRat 1 1])
      (fun _ _ => some [⟨"pinecone-id-1", mkRat 1 2,
        { chunkId := some "c1",
          text := some "Case CS12345 details about routers" }⟩])).1,
   (claim_C7_unique_docids ⟨"f1",
      [{ id := some "c1", text := "Case CS12345 details about routers" }],
      [{ indexName := some "tenant-x", ns := some "ns" }], 6⟩
      "CS12345 router" 5 (some [mkRat 1 1])
      (fun _ _ => some [⟨"pinecone-id-1", mkRat 1 2,
        { chunkId := some "c1",
          text := some "Case CS12345 details about routers" }⟩])).2
     ⟨mkRat 999 1000, "c1", "Case CS12345 details about routers",
       some "case-id"⟩
     (by decide)
     (⟨some "tenant-x", some "ns"⟩, ⟨"pinecone-id-1", mkRat 1 2,
       { chunkId := some "c1",
         text := some "Case CS12345 details about routers" }⟩)
     (by decide) (by decide) (by decide)⟩

/-! ## Claim C10: the result and request size clamp -/

/-- Claim C10: the per-target vector queries are issued with exactly the
clamped limit max(1, min(20, topK or the configured default)) — two fetch
oracles agreeing at that limit yield identical results — and the returned
result list never exceeds that limit, which itself never exceeds 20. -/
theorem claim_C10_topk_clamp (ctx : ProviderCtx) (query : String) (topK : ℕ)
    (embedResult : Option (List ℚ)) (f g : Target → ℕ → Option (List VMatch))
    (hfg : ∀ t ∈ ctx.targets,
      f t (retrieveLimit topK ctx.maxTopK) = g t (retrieveLimit topK ctx.maxTopK)) :
    retrieveModel ctx query topK embedResult f =
      retrieveModel ctx query topK embedResult g ∧
    (retrieveModel ctx query topK embedResult f).length ≤
      retrieveLimit topK ctx.maxTopK ∧
    retrieveLimit topK ctx.maxTopK ≤ 20 := by
  have hagg : aggregatedFor ctx (strTrim query) (retrieveLimit topK ctx.maxTopK) f =
      aggregatedFor ctx (strTrim query) (retrieveLimit topK ctx.maxTopK) g := by
    unfold aggregatedFor
    rw [vectorPool_congr hfg]
  refine ⟨?_, ?_, retrieveLimit_le_twenty _ _⟩
  · unfold retrieveModel
    rw [hagg]
  · unfold retrieveModel
    by_cases hq : strTrim query = ""
    · simp [hq]
    · simp only [hq, if_false]
      cases embedResult with
      | none => simp
      | some v =>
        by_cases hv : v.isEmpty
        · simp [hv]
        · simp only [hv, Bool.false_eq_true, if_false]
          by_cases haggf : (aggregatedFor ctx (strTrim query)
              (retrieveLimit topK ctx.maxTopK) f).isEmpty
          · simp [haggf]
          · simp only [haggf, Bool.false_eq_true, if_false]
            have hmax : max 1 (retrieveLimit topK ctx.maxTopK) =
                retrieveLimit topK ctx.maxTopK :=
              Nat.max_eq_right (retrieveLimit_pos _ _)
            rw [hmax]
            exact dedupLoop_length_le _ _ [] [] (by simp)

/-- Claim C10, witness: the clamp evaluated on a concrete call with the
default limit 6. -/
theorem claim_C10_topk_clamp_witness :
    (retrieveModel ⟨"f1", [{ id := some "c1", text := "Case CS12345 details about routers" }],
        [⟨some "tenant-x", some "ns"⟩], 6⟩ "CS12345 router" 0
        (some [mkRat 1 1]) (fun _ _ => none)).length ≤ retrieveLimit 0 6 ∧
    retrieveLimit 0 6 ≤ 20 :=
  ⟨(claim_C10_topk_clamp ⟨"f1", [{ id := some "c1", text := "Case CS12345 details about routers" }],
      [⟨some "tenant-x", some "ns"⟩], 6⟩ "CS12345 router" 0
      (some [mkRat 1 1]) (fun _ _ => none) (fun _ _ => none)
      (fun _ _ => rfl)).2.1,
   (claim_C10_topk_clamp ⟨"f1", [{ id := some "c1", text := "Case CS12345 details about routers" }],
      [⟨some "tenant-x", some "ns"⟩], 6⟩ "CS12345 router" 0
      (some [mkRat 1 1]) (fun _ _ => none) (fun _ _ => none)
      (fun _ _ => rfl)).2.2⟩

/-! ## Claim C1: behaviour on embedding failure -/

/-- Claim C1, counterexample: on a query whose embedding call fails the
retrieval closure returns the empty list even though both the
exact-identifier pass and the lexical pass have matches over the locally
held chunk set — the fallback the claim describes does not happen. -/
theorem claim_C1_counterexample :
    retrieveModel ⟨"f1", [{ id := some "c1", text := "Case CS12345 details about routers" }],
        [⟨some "tenant-x", some "ns"⟩], 6⟩ "CS12345 router" 0 none
        (fun _ _ => none) = [] ∧
    caseMatches "f1" [{ id := some "c1", text := "Case CS12345 details about routers" }]
      ((extractCaseIdsFromText (strTrim "CS12345 router")).map lowerStr) ≠ [] ∧
    lexicalMatches "f1" [{ id := some "c1", text := "Case CS12345 details about routers" }]
      (dedupFirst (lexTokens (lowerCL (strTrim "CS12345 router"))))
      ((extractCaseIdsFromText (strTrim "CS12345 router")).map lowerStr) ≠ [] := by
  decide

/-- Claim C1, amended: when the embedding call for the query throws, or
returns a malformed (empty) vector, the retrieval closure returns the
empty result list; the lexical and exact-identifier passes are not
consulted.  Graceful degradation applies only to per-target vector query
failures after a successful embedding. -/
theorem claim_C1_embed_failure_empty (ctx : ProviderCtx) (query : String)
    (topK : ℕ) (fetch : Target → ℕ → Option (List VMatch)) :
    retrieveModel ctx query topK none fetch = [] ∧
    retrieveModel ctx query topK (some []) fetch = [] := by
  constructor
  · unfold retrieveModel
    by_cases hq : strTrim query = "" <;> simp [hq]
  · unfold retrieveModel
    by_cases hq : strTrim query = "" <;> simp [hq]

/-! ## Lemmas: the lexical pass -/

theorem lexicalScore_eq_formula (hits total : ℕ) (ht : total ≠ 0) :
    lexicalScore hits total =
      min ((98 : ℚ)/100) (6/10 + ((hits : ℚ)/(total : ℚ)) * (4/10)) := by
  have htq : (total : ℚ) ≠ 0 := Nat.cast_ne_zero.mpr ht
  have hx : (mkRat (6 * total + 4 * hits) (10 * total) : ℚ) =
      6/10 + ((hits : ℚ)/(total : ℚ)) * (4/10) := by
    rw [Rat.mkRat_eq_div]
    push_cast
    field_simp
    ring
  have h98 : (mkRat 98 100 : ℚ) = 98/100 := by
    rw [Rat.mkRat_eq_div]
    norm_num
  rw [lexicalScore, hx, h98, min_def]

theorem get_mem_withIdxFrom {α : Type} :
    ∀ (l : List α) (n i : ℕ) (a : α), l.get? i = some a →
      (n + i, a) ∈ withIdxFrom n l := by
  intro l
  induction l with
  | nil => intro n i a h; simp at h
  | cons x xs ih =>
    intro n i a h
    cases i with
    | zero =>
      simp only [List.get?] at h
      have hax : x = a := by simpa using h
      subst hax
      simp [withIdxFrom]
    | succ j =>
      rw [List.get?_cons_succ] at h
      have hmem := ih (n + 1) j a h
      have harith : n + (j + 1) = (n + 1) + j := by omega
      rw [harith]
      exact List.mem_cons.mpr (Or.inr hmem)

theorem get_mem_withIdx {α : Type} (l : List α) (i : ℕ) (a : α)
    (h : l.get? i = some a) : (i, a) ∈ withIdx l := by
  have := get_mem_withIdxFrom l 0 i a h
  simpa [withIdx] using this

/-! ## Claim C2: the lexical pass and the stop-word list -/

/-- Claim C2, counterexample: the query "them" consists of the single
stop-word token "them", so under the claim (stop words filtered before
matching) no chunk may receive a lexical match; the code applies no
stop-word filter in the lexical pass and assigns the chunk containing
"them" the full lexical score min(0.98, 0.6 + 0.4·(1/1)) = 0.98, tagged
lexical.  The stop-word list only influences keyword extraction. -/
theorem claim_C2_counterexample :
    claimSurvivingTokens "them" = [] ∧
    (lexicalMatches "f1" [{ id := some "c1", text := "please contact them soon" }]
        (dedupFirst (lexTokens (lowerCL "them"))) []).map
        (fun m => (m.id, m.score, m.metadata.origin)) =
      [("c1", mkRat 98 100, some "lexical")] := by
  decide

/-- Claim C2, amended: the lexical pass tokenises the query into lowercase
tokens (alphanumerics with dashes, length at least 3) WITHOUT any stop-word
filtering; every chunk with non-empty text that contains at least one
search token (and, when the query carries exact identifiers, contains one
of them) receives a match scored
min(0.98, 0.6 + 0.4 × matched/total) over the unique search tokens, tagged
with the chunk's own metadata origin or lexical. -/
theorem claim_C2_lexical_score (floppyId : String) (chunks : List RChunk)
    (uniqueTokens caseIdsLower : List String) (i : ℕ) (c : RChunk)
    (hget : chunks.get? i = some c)
    (htext : c.text ≠ "")
    (hcase : caseIdsLower = [] ∨ matchedCaseIds caseIdsLower c ≠ [])
    (hhit : lexicalHits uniqueTokens c ≠ []) :
    ∃ m ∈ lexicalMatches floppyId chunks uniqueTokens caseIdsLower,
      m.score = min ((98 : ℚ)/100)
        (6/10 + (((lexicalHits uniqueTokens c).length : ℚ) /
          ((searchTokensOf uniqueTokens).length : ℚ)) * (4/10)) ∧
      m.metadata.origin = some (jsOrStr c.metadata.origin "lexical") ∧
      m.metadata.text = some c.text ∧
      m.id = resolveChunkId floppyId i c := by
  have hst : searchTokensOf uniqueTokens ≠ [] := by
    intro h
    exact hhit (by simp [lexicalHits, h])
  have huniq : uniqueTokens.isEmpty = false := by
    rcases h : uniqueTokens with _ | _
    · exfalso
      apply hst
      subst h
      simp [searchTokensOf]
    · simp
  have hcond2 : (! caseIdsLower.isEmpty &&
      ! caseIdsLower.any (fun i2 => containsSub i2.data (lowerCL c.text))) = false := by
    rcases hcase with h | h
    · subst h; simp
    · obtain ⟨x, hx⟩ := List.exists_mem_of_ne_nil _ h
      obtain ⟨hx1, hx2⟩ := List.mem_filter.mp hx
      have : caseIdsLower.any (fun i2 => containsSub i2.data (lowerCL c.text)) = true :=
        List.any_eq_true.mpr ⟨x, hx1, hx2⟩
      simp [this]
  have hhitb : (lexicalHits uniqueTokens c).isEmpty = false := by
    rcases h : lexicalHits uniqueTokens c with _ | _
    · exact absurd h hhit
    · simp
  have hf : lexMatchOfChunk floppyId uniqueTokens caseIdsLower (i, c) =
      some
        { id := resolveChunkId floppyId i c
          score := lexicalScore (lexicalHits uniqueTokens c).length
            (searchTokensOf uniqueTokens).length
          metadata :=
            { c.metadata with
              origin := some (jsOrStr c.metadata.origin "lexical")
              chunkId := some (resolveChunkId floppyId i c)
              sourceName := some (sourceLabel c (resolveChunkId floppyId i c))
              keywords := dedupFirst (cleanKeywords c.metadata.keywords ++
                lexicalHits uniqueTokens c ++
                (matchedCaseIds caseIdsLower c).map upperStr)
              text := some c.text } } := by
    unfold lexMatchOfChunk
    rw [if_neg htext]
    simp only [hcond2, Bool.false_eq_true, if_false, hhitb]
  have hmem : (i, c) ∈ withIdx chunks := get_mem_withIdx chunks i c hget
  have hml : lexicalMatches floppyId chunks uniqueTokens caseIdsLower =
      (withIdx chunks).filterMap (lexMatchOfChunk floppyId uniqueTokens caseIdsLower) := by
    unfold lexicalMatches
    simp [huniq]
  refine ⟨_, by rw [hml]; exact List.mem_filterMap.mpr ⟨(i, c), hmem, hf⟩, ?_, rfl, rfl, rfl⟩
  have htot : (searchTokensOf uniqueTokens).length ≠ 0 := by
    intro h
    exact hst (List.length_eq_zero.mp h)
  exact lexicalScore_eq_formula _ _ htot

/-- Claim C2, witness: the score formula evaluated for the chunk
"big routers here" against the unique search tokens router and cable (one
hit out of two tokens). -/
theorem claim_C2_lexical_score_witness :
    ∃ m ∈ lexicalMatches "f1" [{ id := some "c1", text := "big routers here" }]
        ["router", "cable"] [],
      m.score = min ((98 : ℚ)/100)
        (6/10 + (((lexicalHits ["router", "cable"]
            { id := some "c1", text := "big routers here" }).length : ℚ) /
          ((searchTokensOf ["router", "cable"]).length : ℚ)) * (4/10)) ∧
      m.metadata.origin = some (jsOrStr ({} : RMeta).origin "lexical") ∧
      m.metadata.text = some "big routers here" ∧
      m.id = resolveChunkId "f1" 0 { id := some "c1", text := "big routers here" } :=
  claim_C2_lexical_score "f1" [{ id := some "c1", text := "big routers here" }]
    ["router", "cable"] [] 0 { id := some "c1", text := "big routers here" }
    (by decide) (by decide) (Or.inl rfl) (by decide)

/-! ## Lemmas: case-id extraction and non-empty snippets -/

theorem containsSub_head_mem {a : Char} {nd hay : List Char}
    (h : containsSub (a :: nd) hay = true) : a ∈ hay := by
  induction hay with
  | nil => simp [containsSub] at h
  | cons c rest ih =>
    simp only [containsSub, Bool.or_eq_true] at h
    rcases h with h | h
    · have hac : a = c ∧ List.isPrefixOf nd rest = true := by
        simpa [List.isPrefixOf] using h
      exact List.mem_cons.mpr (Or.inl hac.1)
    · exact List.mem_cons.mpr (Or.inr (ih h))

theorem containsSub_nil_of_ne {nd : List Char} (h : nd ≠ []) :
    containsSub nd [] = false := by
  cases nd with
  | nil => cases h rfl
  | cons a t => rfl

theorem jsWs_toLower_self {ch : Char} (h : jsWs ch = true) :
    Char.toLower ch = ch := by
  have hn : ¬(ch.toNat ≥ 65 ∧ ch.toNat ≤ 90) := by
    simp only [jsWs, Bool.or_eq_true, Bool.and_eq_true, decide_eq_true_eq,
      List.mem_cons, List.mem_singleton, List.not_mem_nil, or_false] at h
    omega
  simp [Char.toLower, hn]

theorem trimChars_ne_nil {l : List Char} {ch : Char} (hmem : ch ∈ l)
    (hws : jsWs ch = false) : trimChars l ≠ [] := by
  intro hnil
  unfold trimChars at hnil
  have h1 : (l.dropWhile jsWs).reverse.dropWhile jsWs = [] := by
    have := congrArg List.reverse hnil
    simpa using this
  have h2 := List.dropWhile_eq_nil_iff.mp h1
  have hch : ch ∈ l.dropWhile jsWs := by
    have hsplit := List.takeWhile_append_dropWhile jsWs l
    rw [← hsplit] at hmem
    rcases List.mem_append.mp hmem with h | h
    · have := List.mem_takeWhile_imp h
      rw [hws] at this
      cases this
    · exact h
  have := h2 ch (List.mem_reverse.mpr hch)
  rw [hws] at this
  cases this

theorem strTrim_ne_empty_of_contains {t : String} {hc : Char} {nd : List Char}
    (h : containsSub (hc :: nd) (lowerCL t) = true) (hws : jsWs hc = false) :
    strTrim t ≠ "" := by
  have hmem : hc ∈ lowerCL t := containsSub_head_mem h
  rcases List.mem_map.mp hmem with ⟨ch, hch, hlch⟩
  have hwsch : jsWs ch = false := by
    by_cases hcon : jsWs ch = true
    · have hself := jsWs_toLower_self hcon
      rw [hself] at hlch
      subst hlch
      rw [hcon] at hws
      cases hws
    · simpa using hcon
  have htrim := trimChars_ne_nil hch hwsch
  intro hcon
  apply htrim
  have := congrArg String.data hcon
  simpa [strTrim] using this

theorem caseIdGo_shape :
    ∀ (l : List Char) (st : CaseScanState) (s : String),
      s ∈ caseIdGo st l → ∃ ds : List Char, s = "CS" ++ String.mk ds := by
  intro l
  induction l with
  | nil =>
    intro st s hs
    cases st with
    | idle => simp [caseIdGo] at hs
    | sawC => simp [caseIdGo] at hs
    | sawCS ds =>
      simp only [caseIdGo] at hs
      by_cases h5 : 5 ≤ ds.length
      · rw [if_pos h5] at hs
        exact ⟨ds, by simpa using hs⟩
      · rw [if_neg h5] at hs
        simp at hs
  | cons c rest ih =>
    intro st s hs
    cases st with
    | idle => exact ih _ s (by simpa [caseIdGo] using hs)
    | sawC =>
      simp only [caseIdGo] at hs
      by_cases hcS : c = 'S'
      · rw [if_pos hcS] at hs
        exact ih _ s hs
      · rw [if_neg hcS] at hs
        exact ih _ s hs
    | sawCS ds =>
      simp only [caseIdGo] at hs
      by_cases hd : isDigitCh c = true
      · rw [if_pos hd] at hs
        exact ih _ s hs
      · rw [if_neg hd] at hs
        by_cases h5 : 5 ≤ ds.length
        · rw [if_pos h5] at hs
          rcases List.mem_cons.mp hs with h | h
          · exact ⟨ds, h⟩
          · exact ih _ s h
        · rw [if_neg h5] at hs
          exact ih _ s hs

theorem dedupFirstGo_subset :
    ∀ (l seen : List String) (s : String), s ∈ dedupFirstGo seen l → s ∈ l := by
  intro l
  induction l with
  | nil => intro seen s h; simp [dedupFirstGo] at h
  | cons x xs ih =>
    intro seen s h
    simp only [dedupFirstGo] at h
    by_cases hx : seen.contains x = true
    · rw [if_pos hx] at h
      exact List.mem_cons.mpr (Or.inr (ih seen s h))
    · rw [if_neg hx] at h
      rcases List.mem_cons.mp h with h | h
      · exact List.mem_cons.mpr (Or.inl h)
      · exact List.mem_cons.mpr (Or.inr (ih _ s h))

theorem jsOrStr_ne_empty {a : Option String} {b : String} (hb : b ≠ "") :
    jsOrStr a b ≠ "" := by
  cases a with
  | none => simp [jsOrStr, hb]
  | some s =>
    by_cases hs : s = ""
    · simp [jsOrStr, hs, hb]
    · simp [jsOrStr, hs]

theorem resolveChunkId_ne_empty (floppyId : String) (i : ℕ) (c : RChunk) :
    resolveChunkId floppyId i c ≠ "" := by
  unfold resolveChunkId
  apply jsOrStr_ne_empty
  apply jsOrStr_ne_empty
  intro h
  have := congrArg String.data h
  simp [String.data_append] at this

theorem lexicalScore_le_cap (hits total : ℕ) :
    lexicalScore hits total ≤ mkRat 98 100 := by
  unfold lexicalScore
  split
  · exact le_refl _
  · exact le_of_not_le (by assumption)

theorem lexicalMatches_score_le (floppyId : String) (chunks : List RChunk)
    (uniqueTokens caseIdsLower : List String) :
    ∀ m ∈ lexicalMatches floppyId chunks uniqueTokens caseIdsLower,
      m.score ≤ mkRat 98 100 := by
  intro m hm
  unfold lexicalMatches at hm
  by_cases hu : uniqueTokens.isEmpty = true
  · rw [if_pos hu] at hm
    simp at hm
  · rw [if_neg hu] at hm
    rcases List.mem_filterMap.mp hm with ⟨p, _, hf⟩
    unfold lexMatchOfChunk at hf
    split_ifs at hf
    have := Option.some.inj hf
    rw [← this]
    exact lexicalScore_le_cap _ _

/-! ## Lemmas: the exact-identifier pass on a unique containing chunk -/

theorem caseMatchOfChunk_none {floppyId cid : String} {p : ℕ × RChunk}
    (h : containsSub cid.data (lowerCL p.2.text) = false) :
    caseMatchOfChunk floppyId [cid] p = none := by
  unfold caseMatchOfChunk
  by_cases ht : p.2.text = ""
  · rw [if_pos ht]
  · rw [if_neg ht]
    have hm : matchedCaseIds [cid] p.2 = [] := by
      simp [matchedCaseIds, h]
    rw [hm]
    rfl

theorem caseMatchOfChunk_some {floppyId cid : String} {p : ℕ × RChunk}
    (hcid : cid.data ≠ [])
    (h : containsSub cid.data (lowerCL p.2.text) = true) :
    ∃ m, caseMatchOfChunk floppyId [cid] p = some m ∧
      m.score = mkRat 999 1000 ∧ m.metadata.origin = some "case-id" ∧
      m.metadata.text = some p.2.text ∧ docIdOf m ≠ "" := by
  have ht : ¬ p.2.text = "" := by
    intro h0
    rw [h0] at h
    rw [show lowerCL "" = [] from rfl, containsSub_nil_of_ne hcid] at h
    cases h
  have hne : (matchedCaseIds [cid] p.2).isEmpty = false := by
    simp [matchedCaseIds, h]
  unfold caseMatchOfChunk
  rw [if_neg ht]
  simp only [hne, Bool.false_eq_true, if_false]
  refine ⟨_, rfl, rfl, rfl, rfl, ?_⟩
  have hrid := resolveChunkId_ne_empty floppyId p.1 p.2
  simp [docIdOf, jsOrStr, hrid]

theorem caseMatches_filterMap_nil (floppyId cid : String) :
    ∀ (chunks : List RChunk) (n : ℕ),
      (∀ c ∈ chunks, containsSub cid.data (lowerCL c.text) = false) →
      (withIdxFrom n chunks).filterMap (caseMatchOfChunk floppyId [cid]) = [] := by
  intro chunks
  induction chunks with
  | nil => intro n _; rfl
  | cons c rest ih =>
    intro n hall
    simp only [withIdxFrom, List.filterMap_cons]
    rw [caseMatchOfChunk_none (hall c (by simp))]
    exact ih (n + 1) (fun c2 hc2 => hall c2 (by simp [hc2]))

theorem caseMatches_singleton (floppyId cid : String) (c₀ : RChunk)
    (hcid : cid.data ≠ []) :
    ∀ (chunks : List RChunk) (n : ℕ),
      chunks.filter (fun c => containsSub cid.data (lowerCL c.text)) = [c₀] →
      ∃ m, (withIdxFrom n chunks).filterMap (caseMatchOfChunk floppyId [cid]) = [m] ∧
        m.score = mkRat 999 1000 ∧ m.metadata.origin = some "case-id" ∧
        m.metadata.text = some c₀.text ∧ docIdOf m ≠ "" := by
  intro chunks
  induction chunks with
  | nil => intro n hf; simp [List.filter] at hf
  | cons c rest ih =>
    intro n hf
    by_cases hp : containsSub cid.data (lowerCL c.text) = true
    · have hf2 : c :: rest.filter (fun c2 => containsSub cid.data (lowerCL c2.text)) =
          [c₀] := by
        simpa [List.filter_cons, hp] using hf
      have hc : c = c₀ := (List.cons.injEq _ _ _ _).mp hf2 |>.1
      have hrest : rest.filter (fun c2 => containsSub cid.data (lowerCL c2.text)) = [] :=
        (List.cons.injEq _ _ _ _).mp hf2 |>.2
      have hall : ∀ c2 ∈ rest, containsSub cid.data (lowerCL c2.text) = false := by
        intro c2 hc2
        by_cases hx : containsSub cid.data (lowerCL c2.text) = true
        · exfalso
          have : c2 ∈ rest.filter (fun c3 => containsSub cid.data (lowerCL c3.text)) :=
            List.mem_filter.mpr ⟨hc2, hx⟩
          rw [hrest] at this
          simp at this
        · simpa using hx
      obtain ⟨m, hm, hsc, hor, htx, hdoc⟩ :=
        @caseMatchOfChunk_some floppyId cid (n, c) hcid hp
      refine ⟨m, ?_, hsc, hor, by rw [← hc]; exact htx, hdoc⟩
      simp only [withIdxFrom, List.filterMap_cons, hm]
      rw [caseMatches_filterMap_nil floppyId cid rest (n + 1) hall]
    · have hp2 : containsSub cid.data (lowerCL c.text) = false := by simpa using hp
      have hf2 : rest.filter (fun c2 => containsSub cid.data (lowerCL c2.text)) = [c₀] := by
        simpa [List.filter_cons, hp2] using hf
      obtain ⟨m, hm, hsc, hor, htx, hdoc⟩ := ih (n + 1) hf2
      refine ⟨m, ?_, hsc, hor, htx, hdoc⟩
      simp only [withIdxFrom, List.filterMap_cons]
      rw [caseMatchOfChunk_none hp2]
      exact hm

theorem vectorPool_none (targets : List Target) (limit : ℕ) :
    vectorPool targets (fun _ _ => none) limit = [] := by
  unfold vectorPool
  induction targets with
  | nil => rfl
  | cons t ts ih => simp [List.flatMap_cons, ih]

theorem retrieveModel_main (ctx : ProviderCtx) (query : String) (topK : ℕ)
    (v : List ℚ) (fetch : Target → ℕ → Option (List VMatch))
    (hq : strTrim query ≠ "") (hv : v ≠ [])
    (hagg : aggregatedFor ctx (strTrim query) (retrieveLimit topK ctx.maxTopK) fetch ≠ []) :
    retrieveModel ctx query topK (some v) fetch =
      dedupLoop (max 1 (retrieveLimit topK ctx.maxTopK))
        (sortPool (aggregatedFor ctx (strTrim query)
          (retrieveLimit topK ctx.maxTopK) fetch)) [] [] := by
  unfold retrieveModel
  rw [if_neg hq]
  have hvb : v.isEmpty = false := by
    cases v with
    | nil => cases hv rfl
    | cons a t => rfl
  have haggb : (aggregatedFor ctx (strTrim query)
      (retrieveLimit topK ctx.maxTopK) fetch).isEmpty = false := by
    rcases h : aggregatedFor ctx (strTrim query) (retrieveLimit topK ctx.maxTopK) fetch with
      _ | ⟨a, t⟩
    · cases hagg h
    · rfl
  simp only [hvb, Bool.false_eq_true, if_false, haggb]

/-! ## Claim C5: exact identifier found in a unique chunk -/

/-- Claim C5: when the trimmed query carries exactly one case identifier,
that identifier occurs in the text of exactly one locally held chunk, the
query embeds successfully and EVERY per-target vector query fails, the
retrieval closure still returns that chunk at position 0, carrying the
fixed near-maximum score 0.999 and the case-id origin tag. -/
theorem claim_C5_exact_id_first (ctx : ProviderCtx) (query : String) (topK : ℕ)
    (v : List ℚ) (cid : String) (c₀ : RChunk)
    (hv : v ≠ [])
    (hids : (extractCaseIdsFromText (strTrim query)).map lowerStr = [cid])
    (hfilter : ctx.knowledgeChunks.filter
      (fun c => containsSub cid.data (lowerCL c.text)) = [c₀]) :
    ∃ r, (retrieveModel ctx query topK (some v) (fun _ _ => none)).head? = some r ∧
      r.score = mkRat 999 1000 ∧ r.metaOrigin = some "case-id" ∧
      r.content = strTrim c₀.text := by
  have hcid_shape : ∃ ds : List Char, cid.data = 'c' :: 's' :: ds := by
    rcases hx : extractCaseIdsFromText (strTrim query) with _ | ⟨s, rest⟩
    · rw [hx] at hids; simp at hids
    · rw [hx] at hids
      simp only [List.map_cons] at hids
      have hs_cid : lowerStr s = cid := ((List.cons.injEq _ _ _ _).mp hids).1
      have hs_mem0 : s ∈ extractCaseIdsFromText (strTrim query) := by rw [hx]; simp
      have hs_mem : s ∈ caseIdScan (upperCL (strTrim query)) := by
        unfold extractCaseIdsFromText dedupFirst at hs_mem0
        exact dedupFirstGo_subset _ _ _ hs_mem0
      obtain ⟨ds0, hds0⟩ := caseIdGo_shape _ _ _ hs_mem
      refine ⟨ds0.map Char.toLower, ?_⟩
      rw [← hs_cid, hds0]
      show ("CS" ++ String.mk ds0).data.map Char.toLower = _
      rw [String.data_append]
      simp [show Char.toLower 'C' = 'c' from by decide,
        show Char.toLower 'S' = 's' from by decide]
  obtain ⟨ds, hds⟩ := hcid_shape
  have hcid_ne : cid.data ≠ [] := by rw [hds]; simp
  have hquery_ne : strTrim query ≠ "" := by
    intro h0
    rw [h0] at hids
    rw [show extractCaseIdsFromText "" = [] from rfl] at hids
    simp at hids
  obtain ⟨m, hcm, hsc, hor, htx, hdoc⟩ :=
    caseMatches_singleton ctx.floppyId cid c₀ hcid_ne ctx.knowledgeChunks 0 hfilter
  have hcms : caseMatches ctx.floppyId ctx.knowledgeChunks [cid] = [m] := by
    unfold caseMatches
    rw [if_neg (by simp : ¬ ([cid] : List String).isEmpty = true)]
    exact hcm
  have hagg : aggregatedFor ctx (strTrim query) (retrieveLimit topK ctx.maxTopK)
      (fun _ _ => none) =
      toPoolEntry m :: (lexicalMatches ctx.floppyId ctx.knowledgeChunks
        (dedupFirst (lexTokens (lowerCL (strTrim query)))) [cid]).map toPoolEntry := by
    unfold aggregatedFor
    rw [hids, vectorPool_none, hcms]
    simp
  have hmax : ∀ y ∈ aggregatedFor ctx (strTrim query)
      (retrieveLimit topK ctx.maxTopK) (fun _ _ => none),
      y ≠ toPoolEntry m → y.2.score < (toPoolEntry m).2.score := by
    intro y hy hne
    rw [hagg] at hy
    rcases List.mem_cons.mp hy with h | h
    · cases hne h
    · rcases List.mem_map.mp h with ⟨ml, hml, hml2⟩
      have hle : ml.score ≤ mkRat 98 100 :=
        lexicalMatches_score_le _ _ _ _ ml hml
      have hy2 : y.2.score = ml.score := by rw [← hml2]; rfl
      have hm2 : (toPoolEntry m).2.score = mkRat 999 1000 := hsc
      rw [hy2, hm2]
      exact lt_of_le_of_lt hle (by decide)
  have hmem_agg : toPoolEntry m ∈ aggregatedFor ctx (strTrim query)
      (retrieveLimit topK ctx.maxTopK) (fun _ _ => none) := by
    rw [hagg]; simp
  have hagg_ne : aggregatedFor ctx (strTrim query)
      (retrieveLimit topK ctx.maxTopK) (fun _ _ => none) ≠ [] := by
    rw [hagg]; simp
  have hhead := sortPool_head_of_strict_max hmem_agg hmax
  have hcs : containsSub cid.data (lowerCL c₀.text) = true := by
    have hmem : c₀ ∈ ctx.knowledgeChunks.filter
        (fun c => containsSub cid.data (lowerCL c.text)) := by
      rw [hfilter]; simp
    exact (List.mem_filter.mp hmem).2
  have hsnip_ne : strTrim c₀.text ≠ "" := by
    rw [hds] at hcs
    exact strTrim_ne_empty_of_contains hcs (by decide)
  have hsnip : snippetOf m.metadata = strTrim c₀.text := by
    unfold snippetOf
    rw [htx]
    simp [hsnip_ne]
  rw [retrieveModel_main ctx query topK v (fun _ _ => none) hquery_ne hv hagg_ne]
  rcases hsp : sortPool (aggregatedFor ctx (strTrim query)
      (retrieveLimit topK ctx.maxTopK) (fun _ _ => none)) with _ | ⟨h0, t0⟩
  · rw [hsp] at hhead; simp at hhead
  · have hh0 : h0 = toPoolEntry m := by
      rw [hsp] at hhead; simpa using hhead
    subst hh0
    refine ⟨mkRes (toPoolEntry m), ?_, hsc, hor, hsnip⟩
    exact dedupLoop_first_kept _ _ _ (Nat.le_max_left 1 _)
      (by show snippetOf m.metadata ≠ ""; rw [hsnip]; exact hsnip_ne) hdoc

/-- Claim C5, witness: the concrete query "CS12345 router" against a chunk
set where exactly the first chunk contains the identifier, with every
vector target failing, returns that chunk first with score 0.999. -/
theorem claim_C5_exact_id_first_witness :
    ∃ r, (retrieveModel ⟨"f1",
        [{ id := some "c1", text := "Case CS12345 details about routers" },
         { id := some "c2", text := "other text about cables and routers" }],
        [⟨some "tenant-x", some "ns"⟩], 6⟩ "CS12345 router" 0
        (some [mkRat 1 1]) (fun _ _ => none)).head? = some r ∧
      r.score = mkRat 999 1000 ∧ r.metaOrigin = some "case-id" ∧
      r.content = strTrim "Case CS12345 details about routers" :=
  claim_C5_exact_id_first ⟨"f1",
    [{ id := some "c1", text := "Case CS12345 details about routers" },
     { id := some "c2", text := "other text about cables and routers" }],
    [⟨some "tenant-x", some "ns"⟩], 6⟩ "CS12345 router" 0 [mkRat 1 1] "cs12345"
    { id := some "c1", text := "Case CS12345 details about routers" }
    (by decide) (by decide) (by decide)

end Floopy
